import Mathlib

/-!
Blackjack rules engine (`main.go`).

A shallow embedding of the single-file Go program: cards, the deck with its
shuffle and deal, hand scoring, the `Game` operations `Hit`, `Stand` and
`Result`, and the constructor `NewGame`.

Modelling conventions.

* Go slices are modelled by `List`; every slice that the program mutates is
  owned by exactly one variable (the deck, or one hand), so value semantics is
  faithful.
* Go `int` is modelled by `Int`.  The only arithmetic is the running total of a
  hand, at most `11` per card of rank `1..13`; a hand long enough to leave the
  64-bit range does not fit in the address space, so no wrap-around is modelled.
* A Go runtime panic (slice bounds or index out of range) is modelled by the
  `panicked` outcome of `Run`, which carries the state as the panic left it.
* `rand.Intn (i + 1)` returns an integer in `[0, i]`; the random source is a
  parameter `rnd : (i : Nat) → Fin (i + 1)` giving the draw made at step `i`.
-/

namespace Blackjack

/-! ## Data model -/

/-- Card represents a playing card with a suit and rank (`type Card struct`). -/
structure Card where
  Suit : String
  Rank : Int
deriving DecidableEq

/-- Deck represents a deck of cards (`type Deck []Card`). -/
abbrev Deck := List Card

/-- Hand represents a hand of cards in a game of blackjack (`type Hand struct`). -/
structure Hand where
  Cards : List Card
  Total : Int
  Soft : Bool
deriving DecidableEq

/-- Game represents a game of blackjack (`type Game struct`). -/
structure Game where
  Deck : Deck
  Dealer : Hand
  Player : Hand
  Done : Bool
deriving DecidableEq

/-- Outcome of running a Go function that may abort with a runtime panic:
`done v` is a normal return with result `v`; `panicked s` is a runtime panic,
`s` being the state of the receiver at the moment of the panic. -/
inductive Run (σ α : Type) where
  | done (value : α) : Run σ α
  | panicked (state : σ) : Run σ α
deriving DecidableEq

/-- Which of the two hands of the game a `*Hand` argument points to. -/
inductive Who where
  | player
  | dealer
deriving DecidableEq

/-- The hand of the game selected by `w`. -/
def Game.hand (g : Game) : Who → Hand
  | .player => g.Player
  | .dealer => g.Dealer

/-- Store `h` through the pointer selected by `w`. -/
def Game.setHand (g : Game) (w : Who) (h : Hand) : Game :=
  match w with
  | .player => { g with Player := h }
  | .dealer => { g with Dealer := h }

/-! ## Card rendering -/

/-- The map `rankStrings` of `Card.String`, as a lookup: the `ok` result of
`rankStrings[c.Rank]` is `some`, a missing key is `none`. -/
def rankStrings (rank : Int) : Option String :=
  if rank = 1 then some "A"
  else if rank = 11 then some "J"
  else if rank = 12 then some "Q"
  else if rank = 13 then some "K"
  else none

/-- String renders a card: the entry of `rankStrings` for the rank, or
`fmt.Sprintf("%d", c.Rank)` when the rank is not in the map, followed by the
suit. -/
def Card.String (c : Card) : String :=
  let rankString :=
    match rankStrings c.Rank with
    | some s => s
    | none => toString c.Rank
  rankString ++ c.Suit

/-! ## Deck: shuffle and deal -/

/-- The tuple assignment `d[i], d[j] = d[j], d[i]`.  Both indices are in range
whenever `Shuffle` executes it (`i` ranges over the indices and `j ≤ i`); the
fall-through branch only makes the function total. -/
def swapAt (d : Deck) (i j : Nat) : Deck :=
  match d[i]?, d[j]? with
  | some a, some b => (d.set i b).set j a
  | _, _ => d

/-- Shuffle shuffles the deck using the Fisher-Yates shuffle algorithm:
`for i := range d { j := rand.Intn(i + 1); d[i], d[j] = d[j], d[i] }`,
where `rnd i` is the value returned by `rand.Intn(i + 1)`. -/
def Deck.Shuffle (d : Deck) (rnd : (i : Nat) → Fin (i + 1)) : Deck :=
  (List.range d.length).foldl (fun acc i => swapAt acc i (rnd i).val) d

/-- Deal deals a number of cards from the top of the deck:
`cards := (*d)[:n]; *d = (*d)[n:]; return cards`.
The first slice expression panics when `n < 0` or `n > cap`, the second when
`n > len`; as `len ≤ cap`, the function panics exactly when `n < 0` or
`n > len`, in both cases before `*d` is assigned.  A normal return gives the
cards dealt and the remaining deck. -/
def Deck.Deal (d : Deck) (n : Int) : Run Deck (List Card × Deck) :=
  if 0 ≤ n ∧ n ≤ (d.length : Int) then
    .done (d.take n.toNat, d.drop n.toNat)
  else
    .panicked d

/-! ## Hand scoring -/

/-- One iteration of the loop of `Score` on the pair `(Total, Soft)`. -/
def Hand.scoreStep (acc : Int × Bool) (card : Card) : Int × Bool :=
  if card.Rank = 1 then
    (acc.1 + 11, true)
  else if card.Rank > 10 then
    (acc.1 + 10, acc.2)
  else
    (acc.1 + card.Rank, acc.2)

/-- Score calculates the total score of the hand, taking into account whether
the hand contains an Ace that should be counted as 11 points (a "soft" hand) or
1 point (a "hard" hand). -/
def Hand.Score (h : Hand) : Hand :=
  let acc := h.Cards.foldl Hand.scoreStep (0, false)
  if acc.1 > 21 ∧ acc.2 = true then
    { h with Total := acc.1 - 10, Soft := false }
  else
    { h with Total := acc.1, Soft := acc.2 }

/-! ## Game -/

/-- The four suit symbols, in the order `NewGame` iterates them. -/
def suits : List String := ["♠", "♥", "♦", "♣"]

/-- The two nested loops of `NewGame` filling `deck[index]`, started from the
zeroed slice `make(Deck, 52)` and `index := 0`; returns the deck and `index`. -/
def NewGame.fill : Deck × Nat :=
  suits.foldl
    (fun st suit =>
      (List.range' 1 13).foldl
        (fun st rank => (st.1.set st.2 { Suit := suit, Rank := (rank : Int) }, st.2 + 1))
        st)
    (List.replicate 52 { Suit := "", Rank := 0 }, 0)

/-- NewGame creates a new game of blackjack with a shuffled deck of cards. -/
def NewGame (rnd : (i : Nat) → Fin (i + 1)) : Game :=
  { Deck := Deck.Shuffle NewGame.fill.1 rnd
    Dealer := { Cards := [], Total := 0, Soft := false }
    Player := { Cards := [], Total := 0, Soft := false }
    Done := false }

/-- Hit deals a card to the hand and updates the total score:
`card := g.Deck.Deal(1)[0]; h.Cards = append(h.Cards, card); h.Score()`. -/
def Game.Hit (g : Game) (w : Who) : Run Game Game :=
  match g.Deck.Deal 1 with
  | .panicked d => .panicked { g with Deck := d }
  | .done (cards, rest) =>
    match cards[0]? with
    | none => .panicked { g with Deck := rest }
    | some card =>
      let g1 : Game := { g with Deck := rest }
      let h := g1.hand w
      .done (g1.setHand w (Hand.Score { h with Cards := h.Cards ++ [card] }))

/-- The loop condition of `Stand`:
`g.Dealer.Total < 17 || (g.Dealer.Total == 17 && g.Dealer.Soft)`. -/
def Hand.mustHit (h : Hand) : Bool :=
  decide (h.Total < 17) || (decide (h.Total = 17) && h.Soft)

set_option linter.unusedVariables false in
/-- The loop of `Stand`: `for cond { g.Hit(&g.Dealer) }`.  Every iteration that
returns takes one card off the deck, which is the termination measure. -/
def Game.dealerLoop (g : Game) : Run Game Game :=
  if g.Dealer.mustHit = true then
    match hHit : g.Hit Who.dealer with
    | .panicked s => .panicked s
    | .done g1 => Game.dealerLoop g1
  else
    .done g
termination_by g.Deck.length
decreasing_by
  obtain ⟨deck, dealer, player, finished⟩ := g
  cases deck with
  | nil => simp [Game.Hit, Deck.Deal] at hHit
  | cons c cs =>
    simp [Game.Hit, Deck.Deal, Game.setHand, Game.hand] at hHit
    subst hHit
    simp

/-- Stand ends the player's turn and starts the dealer's turn:
`g.Done = true`, then the dealer loop. -/
def Game.Stand (g : Game) : Run Game Game :=
  Game.dealerLoop { g with Done := true }

/-- Result returns the result of the game as a string. -/
def Game.Result (g : Game) : String :=
  if g.Dealer.Total > 21 then
    "You win! Dealer bust."
  else if g.Player.Total = 21 ∧ g.Dealer.Total = 21 then
    "You both hit blackjack! You Tie."
  else if g.Player.Total > 21 then
    "You lose! You bust."
  else if g.Player.Total > 21 ∧ g.Dealer.Total ≠ 21 then
    "You win! Dealer busts."
  else if g.Dealer.Total > 21 ∧ g.Dealer.Total ≠ 21 then
    "You win! Dealer busts."
  else if g.Dealer.Total > g.Player.Total then
    "You lose! Dealer has a higher score."
  else if g.Dealer.Total < g.Player.Total then
    "You win! You have a higher score."
  else
    "Push. You have the same score as the dealer."

/-! ## The round played by `main` -/

/-- Sequencing of two calls: the second runs on the state the first returned;
a panic of the first ends the run. -/
def Run.andThen (r : Run Game Game) (f : Game → Run Game Game) : Run Game Game :=
  match r with
  | .done g => f g
  | .panicked s => .panicked s

/-- The opening deal of `main`:
`g.Hit(&g.Player); g.Hit(&g.Dealer); g.Hit(&g.Player); g.Hit(&g.Dealer)`. -/
def openingDeal (g : Game) : Run Game Game :=
  (((g.Hit Who.player).andThen (fun g => g.Hit Who.dealer)).andThen
    (fun g => g.Hit Who.player)).andThen (fun g => g.Hit Who.dealer)

/-- The loop of `main`, `for !g.Done { ... }`, where `inputs` lists the values
of `input` after the successive calls of `fmt.Scanln(&input)` (printing is not
modelled): "h" hits the player, "s" stands, anything else does nothing; then
`if g.Player.Total > 21 { break }`.  The loop is followed for as long as
`inputs` lasts; the result is the game when it exits or the inputs end. -/
def mainLoop : List String → Game → Run Game Game
  | [], g => .done g
  | input :: rest, g =>
    if g.Done = true then
      .done g
    else
      (if input = "h" then g.Hit Who.player
        else if input = "s" then g.Stand
        else .done g).andThen
        (fun g1 => if g1.Player.Total > 21 then .done g1 else mainLoop rest g1)

/-- The body of `main` after `g := NewGame()`, up to the exit of its loop. -/
def playRound (g : Game) (inputs : List String) : Run Game Game :=
  (openingDeal g).andThen (mainLoop inputs)

/-- The function `main` up to the exit of its loop, on the draws `rnd` of the
shuffle and the lines `inputs` typed by the player. -/
def main (rnd : (i : Nat) → Fin (i + 1)) (inputs : List String) : Run Game Game :=
  playRound (NewGame rnd) inputs

/-! ## Auxiliary and specification-side definitions -/

/-- Value the loop of `Score` adds for one card. -/
def Hand.cardPoints (card : Card) : Int :=
  if card.Rank = 1 then 11 else if card.Rank > 10 then 10 else card.Rank

/-- Value of a card as the scoring rule words it: an Ace (rank 1) counts 11, a
face card (rank 11..13) counts 10, every other card counts its rank. -/
def rawValue (c : Card) : Int :=
  if c.Rank = 1 then 11 else if 11 ≤ c.Rank ∧ c.Rank ≤ 13 then 10 else c.Rank

/-- Sum of the cards with every Ace counted as 11. -/
def rawSum (cards : List Card) : Int := (cards.map rawValue).sum

/-- Whether the hand contains at least one Ace. -/
def hasAce (cards : List Card) : Bool := cards.any (fun c => decide (c.Rank = 1))

/-- The six-row decision table for the outcome, read top to bottom, on the
dealer total `d` and the player total `p`. -/
def resultTable (d p : Int) : String :=
  if d > 21 then "You win! Dealer bust."
  else if p = 21 ∧ d = 21 then "You both hit blackjack! You Tie."
  else if p > 21 then "You lose! You bust."
  else if d > p then "You lose! Dealer has a higher score."
  else if d < p then "You win! You have a higher score."
  else "Push. You have the same score as the dealer."

/-- Number of Aces in a hand. -/
def numAces (cards : List Card) : Nat := cards.countP (fun c => decide (c.Rank = 1))

/-- Sum of the values of the cards that are not Aces. -/
def nonAceSum (cards : List Card) : Int :=
  ((cards.filter (fun c => decide (c.Rank ≠ 1))).map rawValue).sum

/-- A total counts an Ace as 11 without busting: it is at most 21 and equals
the non-Ace sum, plus 11 for one Ace, plus 1 or 11 for each remaining Ace
(`k` of the remaining Aces at 11, the others at 1). -/
def countsAceAsEleven (cards : List Card) (total : Int) : Prop :=
  total ≤ 21 ∧
    ∃ k, k < numAces cards ∧
      total = nonAceSum cards + 11 + (11 * (k : Int) + ((numAces cards - 1 - k : Nat) : Int))

instance (cards : List Card) (total : Int) : Decidable (countsAceAsEleven cards total) := by
  unfold countsAceAsEleven
  infer_instance

/-- The hand of the game that `w` does not select. -/
def Who.other : Who → Who
  | .player => .dealer
  | .dealer => .player

/-- The hand obtained from `h` by appending the cards `dealt` one at a time and
re-scoring after each, as successive `Hit`s do. -/
def dealerAfter (h : Hand) (dealt : List Card) : Hand :=
  dealt.foldl (fun acc c => Hand.Score { acc with Cards := acc.Cards ++ [c] }) h

/-- Game states reachable from a `NewGame` state by `Hit` calls that return and
by `Stand` calls (whether the call returns or panics out of cards). -/
inductive Reachable : Game → Prop where
  | new (rnd : (i : Nat) → Fin (i + 1)) : Reachable (NewGame rnd)
  | hit (g g' : Game) (w : Who) : Reachable g → g.Hit w = .done g' → Reachable g'
  | stand (g g' : Game) : Reachable g → g.Stand = .done g' → Reachable g'
  | standPanic (g g' : Game) : Reachable g → g.Stand = .panicked g' → Reachable g'

/-- The game state when a call ends, whether it returned or panicked. -/
def Run.final : Run Game Game → Game
  | .done g => g
  | .panicked g => g

/-- All totals obtainable from the cards by counting each Ace as 1 or as 11 and
every other card at its value. -/
def valuations : List Card → List Int
  | [] => [0]
  | c :: cs =>
    if c.Rank = 1 then
      (valuations cs).map (fun v => v + 1) ++ (valuations cs).map (fun v => v + 11)
    else
      (valuations cs).map (fun v => v + rawValue c)

/-- The total of the cards with every Ace counted as 1. -/
def lowTotal (cards : List Card) : Int :=
  (cards.map (fun c => if c.Rank = 1 then 1 else rawValue c)).sum

/-- At most `k` further hits of the player, each made only while the player's
`Total` is at most 21. -/
def guardedHits : Nat → Game → Run Game Game
  | 0, g => .done g
  | k + 1, g =>
    if g.Player.Total ≤ 21 then (g.Hit Who.player).andThen (guardedHits k) else .done g

/-- The play sequence: the opening deal, then up to `k` guarded hits of the
player, then `Stand`. -/
def roundThenStand (k : Nat) (g : Game) : Run Game Game :=
  ((openingDeal g).andThen (guardedHits k)).andThen Game.Stand

/-- The deck, the player's cards and the dealer's cards, in that order. -/
def Game.allCards (g : Game) : List Card :=
  g.Deck ++ g.Player.Cards ++ g.Dealer.Cards

/-- The invariant of a round: both hands are scored, every card has rank at
least 1, and deck and hands hold 52 cards together. -/
def RoundInv (g : Game) : Prop :=
  g.Player.Score = g.Player ∧ g.Dealer.Score = g.Dealer ∧
    (∀ c ∈ g.allCards, 1 ≤ c.Rank) ∧ g.allCards.length = 52

/-- The first `k` iterations of the loop of `Shuffle`. -/
def shuffleSteps (rnd : (i : Nat) → Fin (i + 1)) (k : Nat) (d : Deck) : Deck :=
  (List.range k).foldl (fun acc i => swapAt acc i (rnd i).val) d

/-! ## Scoring -/

theorem foldl_scoreStep (cards : List Card) (t : Int) (s : Bool) :
    cards.foldl Hand.scoreStep (t, s)
      = (t + (cards.map Hand.cardPoints).sum, s || hasAce cards) := by
  induction cards generalizing t s with
  | nil => simp [hasAce]
  | cons c cs ih =>
    simp only [List.foldl_cons, List.map_cons, List.sum_cons, ih]
    by_cases h1 : c.Rank = 1
    · simp [Hand.scoreStep, Hand.cardPoints, hasAce, h1, add_assoc]
    · by_cases h2 : c.Rank > 10
      · simp [Hand.scoreStep, Hand.cardPoints, hasAce, h1, h2, add_assoc]
      · simp [Hand.scoreStep, Hand.cardPoints, hasAce, h1, h2, add_assoc]

theorem cardPoints_eq_rawValue (c : Card) (h : 1 ≤ c.Rank ∧ c.Rank ≤ 13) :
    Hand.cardPoints c = rawValue c := by
  unfold Hand.cardPoints rawValue
  split_ifs <;> omega

theorem sum_cardPoints_eq_rawSum (cards : List Card)
    (hr : ∀ c ∈ cards, 1 ≤ c.Rank ∧ c.Rank ≤ 13) :
    (cards.map Hand.cardPoints).sum = rawSum cards := by
  unfold rawSum
  congr 1
  exact List.map_congr_left (fun c hc => cardPoints_eq_rawValue c (hr c hc))

theorem Score_eq (h : Hand) :
    h.Score =
      if (h.Cards.map Hand.cardPoints).sum > 21 ∧ hasAce h.Cards = true then
        { Cards := h.Cards, Total := (h.Cards.map Hand.cardPoints).sum - 10, Soft := false }
      else
        { Cards := h.Cards, Total := (h.Cards.map Hand.cardPoints).sum, Soft := hasAce h.Cards } := by
  simp [Hand.Score, foldl_scoreStep]


/-- C1: for a hand of cards with ranks 1..13, `Score` keeps the cards and sets
`Total` and `Soft` from the raw sum (Ace 11, face 10, others their rank): when
the raw sum exceeds 21 and the hand has an Ace, `Total` is the raw sum minus 10
and `Soft` is false; otherwise `Total` is the raw sum and `Soft` says whether
the hand has an Ace.  The subtraction happens once: Ace-King scores soft 21,
Ace-Ace-9 hard 21, 10-9-5 hard 24 and Ace-Ace hard 12. -/
theorem Score_total_and_soft (h : Hand)
    (hr : ∀ c ∈ h.Cards, 1 ≤ c.Rank ∧ c.Rank ≤ 13) :
    (h.Score.Cards = h.Cards ∧
      (rawSum h.Cards > 21 ∧ hasAce h.Cards = true →
        h.Score.Total = rawSum h.Cards - 10 ∧ h.Score.Soft = false) ∧
      (¬ (rawSum h.Cards > 21 ∧ hasAce h.Cards = true) →
        h.Score.Total = rawSum h.Cards ∧ h.Score.Soft = hasAce h.Cards)) ∧
    (∀ (s1 s2 : String) (t : Int) (b : Bool),
      Hand.Score ⟨[⟨s1, 1⟩, ⟨s2, 13⟩], t, b⟩ = ⟨[⟨s1, 1⟩, ⟨s2, 13⟩], 21, true⟩) ∧
    (∀ (s1 s2 s3 : String) (t : Int) (b : Bool),
      Hand.Score ⟨[⟨s1, 1⟩, ⟨s2, 1⟩, ⟨s3, 9⟩], t, b⟩
        = ⟨[⟨s1, 1⟩, ⟨s2, 1⟩, ⟨s3, 9⟩], 21, false⟩) ∧
    (∀ (s1 s2 s3 : String) (t : Int) (b : Bool),
      Hand.Score ⟨[⟨s1, 10⟩, ⟨s2, 9⟩, ⟨s3, 5⟩], t, b⟩
        = ⟨[⟨s1, 10⟩, ⟨s2, 9⟩, ⟨s3, 5⟩], 24, false⟩) ∧
    (∀ (s1 s2 : String) (t : Int) (b : Bool),
      Hand.Score ⟨[⟨s1, 1⟩, ⟨s2, 1⟩], t, b⟩ = ⟨[⟨s1, 1⟩, ⟨s2, 1⟩], 12, false⟩) := by
  refine ⟨?_, ?_, ?_, ?_, ?_⟩
  · rw [Score_eq, sum_cardPoints_eq_rawSum h.Cards hr]
    refine ⟨?_, ?_, ?_⟩
    · split_ifs <;> rfl
    · intro hc
      simp [hc]
    · intro hc
      simp [hc]
  · intro s1 s2 t b
    simp [Hand.Score, Hand.scoreStep]
  · intro s1 s2 s3 t b
    simp [Hand.Score, Hand.scoreStep]
  · intro s1 s2 s3 t b
    simp [Hand.Score, Hand.scoreStep]
  · intro s1 s2 t b
    simp [Hand.Score, Hand.scoreStep]

/-- Witness for C1 at the hand Ace of spades, King of hearts. -/
theorem Score_total_and_soft_witness :
    (∀ c ∈ (Hand.mk [⟨"♠", 1⟩, ⟨"♥", 13⟩] 0 false).Cards, 1 ≤ c.Rank ∧ c.Rank ≤ 13) ∧
    (Hand.Score ⟨[⟨"♠", 1⟩, ⟨"♥", 13⟩], 0, false⟩).Total = 21 ∧
    (Hand.Score ⟨[⟨"♠", 1⟩, ⟨"♥", 13⟩], 0, false⟩).Soft = true :=
  have hr : ∀ c ∈ (Hand.mk [⟨"♠", 1⟩, ⟨"♥", 13⟩] 0 false).Cards, 1 ≤ c.Rank ∧ c.Rank ≤ 13 := by
    decide
  ⟨hr, ((Score_total_and_soft ⟨[⟨"♠", 1⟩, ⟨"♥", 13⟩], 0, false⟩ hr).1.2.2 (by decide))⟩

/-- C2 (counterexample): the hand Ace, Ace is scored 12 with `Soft = false`,
although 12 does not bust and is the non-Ace sum 0 plus 11 for one Ace plus 1
for the other; likewise Ace, Ace, 5 is scored a hard 17.  So `Soft` is not
equivalent, over all hands of ranks 1..13, to "an Ace is counted as 11 without
busting". -/
theorem Score_two_aces_hard :
    (Hand.Score ⟨[⟨"♠", 1⟩, ⟨"♥", 1⟩], 0, false⟩).Total = 12 ∧
    (Hand.Score ⟨[⟨"♠", 1⟩, ⟨"♥", 1⟩], 0, false⟩).Soft = false ∧
    countsAceAsEleven [⟨"♠", 1⟩, ⟨"♥", 1⟩] 12 ∧
    (Hand.Score ⟨[⟨"♠", 1⟩, ⟨"♥", 1⟩, ⟨"♦", 5⟩], 0, false⟩).Total = 17 ∧
    (Hand.Score ⟨[⟨"♠", 1⟩, ⟨"♥", 1⟩, ⟨"♦", 5⟩], 0, false⟩).Soft = false ∧
    countsAceAsEleven [⟨"♠", 1⟩, ⟨"♥", 1⟩, ⟨"♦", 5⟩] 17 ∧
    ¬ (∀ h : Hand, (∀ c ∈ h.Cards, 1 ≤ c.Rank ∧ c.Rank ≤ 13) →
        (h.Score.Soft = true ↔ countsAceAsEleven h.Cards h.Score.Total)) := by
  refine ⟨by decide, by decide, by decide, by decide, by decide, by decide, ?_⟩
  intro hall
  have h := hall ⟨[⟨"♠", 1⟩, ⟨"♥", 1⟩], 0, false⟩ (by decide)
  exact absurd (h.mpr (by decide)) (by decide)

/-! ## Outcome -/

/-- C3: for all totals, `Result` is the six-row decision table evaluated top to
bottom on the dealer and player totals; the message of the two extra branches
is never returned, and the path condition of each of them is unsatisfiable. -/
theorem Result_eq_resultTable (g : Game) :
    g.Result = resultTable g.Dealer.Total g.Player.Total ∧
    g.Result ≠ "You win! Dealer busts." ∧
    ¬ (¬ g.Dealer.Total > 21 ∧ ¬ (g.Player.Total = 21 ∧ g.Dealer.Total = 21) ∧
        ¬ g.Player.Total > 21 ∧ (g.Player.Total > 21 ∧ g.Dealer.Total ≠ 21)) ∧
    ¬ (¬ g.Dealer.Total > 21 ∧ ¬ (g.Player.Total = 21 ∧ g.Dealer.Total = 21) ∧
        ¬ g.Player.Total > 21 ∧ ¬ (g.Player.Total > 21 ∧ g.Dealer.Total ≠ 21) ∧
        (g.Dealer.Total > 21 ∧ g.Dealer.Total ≠ 21)) := by
  refine ⟨?_, ?_, ?_, ?_⟩
  · unfold Game.Result resultTable
    split_ifs <;> first | rfl | omega
  · unfold Game.Result
    split_ifs <;> first | decide | omega
  · omega
  · omega

/-! ## Deal and Hit -/

theorem Score_congr (cards : List Card) (t t' : Int) (b b' : Bool) :
    Hand.Score ⟨cards, t, b⟩ = Hand.Score ⟨cards, t', b'⟩ := by
  simp [Hand.Score]

theorem Score_Cards (h : Hand) : h.Score.Cards = h.Cards := by
  rw [Score_eq]
  split_ifs <;> rfl

theorem Deal_in_range (d : Deck) (n : Int) (h0 : 0 ≤ n) (hn : n ≤ (d.length : Int)) :
    d.Deal n = .done (d.take n.toNat, d.drop n.toNat) := by
  simp [Deck.Deal, h0, hn]

theorem Deal_out_of_range (d : Deck) (n : Int) (h : n < 0 ∨ (d.length : Int) < n) :
    d.Deal n = .panicked d := by
  have : ¬ (0 ≤ n ∧ n ≤ (d.length : Int)) := by omega
  simp [Deck.Deal, this]

theorem Hit_nil (g : Game) (w : Who) (h : g.Deck = []) : g.Hit w = .panicked g := by
  obtain ⟨deck, dealer, player, finished⟩ := g
  simp only at h
  subst h
  simp [Game.Hit, Deck.Deal]

theorem Hit_cons (g : Game) (w : Who) (c : Card) (rest : Deck) (h : g.Deck = c :: rest) :
    g.Hit w = .done (({ g with Deck := rest } : Game).setHand w
      (Hand.Score { (g.hand w) with Cards := (g.hand w).Cards ++ [c] })) := by
  obtain ⟨deck, dealer, player, finished⟩ := g
  simp only at h
  subst h
  cases w <;> simp [Game.Hit, Deck.Deal, Game.hand]

theorem Hit_returns (g : Game) (w : Who) (hne : g.Deck ≠ []) :
    ∃ g', g.Hit w = .done g' ∧ (g'.hand w).Cards.length = (g.hand w).Cards.length + 1 := by
  cases hd : g.Deck with
  | nil => exact absurd hd hne
  | cons c rest =>
    refine ⟨_, Hit_cons g w c rest hd, ?_⟩
    cases w <;> simp [Game.setHand, Game.hand, Score_Cards]

/-- C5: on a non-empty deck `Hit` on either hand takes the first card `c` off
the deck (the deck becomes its tail), appends `c` as the last card of that
hand, sets the hand's `Total` and `Soft` to the score of the new sequence, and
leaves the other hand and `Done` unchanged. -/
theorem Hit_effect (g : Game) (w : Who) (hne : g.Deck ≠ []) :
    ∃ c rest g',
      g.Deck = c :: rest ∧ g.Hit w = .done g' ∧
      g'.Deck = rest ∧ g'.Deck.length + 1 = g.Deck.length ∧
      (g'.hand w).Cards = (g.hand w).Cards ++ [c] ∧
      (∀ t b, (g'.hand w).Total = (Hand.Score ⟨(g.hand w).Cards ++ [c], t, b⟩).Total ∧
              (g'.hand w).Soft = (Hand.Score ⟨(g.hand w).Cards ++ [c], t, b⟩).Soft) ∧
      g'.hand w.other = g.hand w.other ∧
      g'.Done = g.Done := by
  obtain ⟨deck, dealer, player, finished⟩ := g
  cases deck with
  | nil => exact absurd rfl hne
  | cons c rest =>
    refine ⟨c, rest, _, rfl, Hit_cons _ w c rest rfl, ?_⟩
    cases w
    · refine ⟨rfl, rfl, ?_, ?_, rfl, rfl⟩
      · simp [Game.setHand, Game.hand, Score_Cards]
      · intro t b
        simp only [Game.setHand, Game.hand]
        rw [Score_congr _ t player.Total b player.Soft]
        exact ⟨rfl, rfl⟩
    · refine ⟨rfl, rfl, ?_, ?_, rfl, rfl⟩
      · simp [Game.setHand, Game.hand, Score_Cards]
      · intro t b
        simp only [Game.setHand, Game.hand]
        rw [Score_congr _ t dealer.Total b dealer.Soft]
        exact ⟨rfl, rfl⟩

/-- Witness for C5: hitting the player with a two-card deck. -/
theorem Hit_effect_witness :
    (Game.mk [⟨"♠", 1⟩, ⟨"♥", 13⟩] ⟨[], 0, false⟩ ⟨[⟨"♦", 9⟩], 9, false⟩ false).Deck ≠ [] ∧
    ∃ c rest g',
      (Game.mk [⟨"♠", 1⟩, ⟨"♥", 13⟩] ⟨[], 0, false⟩ ⟨[⟨"♦", 9⟩], 9, false⟩ false).Deck
        = c :: rest ∧
      (Game.mk [⟨"♠", 1⟩, ⟨"♥", 13⟩] ⟨[], 0, false⟩ ⟨[⟨"♦", 9⟩], 9, false⟩ false).Hit Who.player
        = .done g' ∧ g'.Deck = rest :=
  ⟨by decide,
    let ⟨c, rest, g', h1, h2, h3, _⟩ :=
      Hit_effect (Game.mk [⟨"♠", 1⟩, ⟨"♥", 13⟩] ⟨[], 0, false⟩ ⟨[⟨"♦", 9⟩], 9, false⟩ false)
        Who.player (by decide)
    ⟨c, rest, g', h1, h2, h3⟩⟩

/-- C6: for `0 ≤ n ≤ len d`, `Deal n` returns the first `n` cards of `d` in
order and leaves the remaining `len d - n` cards in order; the cards returned
followed by the remaining deck are the old deck, and when `d` has no duplicate
card no returned card occurs in the remaining deck. -/
theorem Deal_takes_prefix (d : Deck) (n : Int) (h0 : 0 ≤ n) (hn : n ≤ (d.length : Int)) :
    ∃ cards rest,
      d.Deal n = .done (cards, rest) ∧
      cards = d.take n.toNat ∧ rest = d.drop n.toNat ∧
      (cards.length : Int) = n ∧ (rest.length : Int) = (d.length : Int) - n ∧
      cards ++ rest = d ∧
      (d.Nodup → ∀ c ∈ cards, c ∉ rest) := by
  refine ⟨d.take n.toNat, d.drop n.toNat, Deal_in_range d n h0 hn, rfl, rfl, ?_, ?_, ?_, ?_⟩
  · rw [List.length_take]
    omega
  · rw [List.length_drop]
    omega
  · exact List.take_append_drop _ _
  · intro hnd c hc hc'
    have hd : (d.take n.toNat ++ d.drop n.toNat).Nodup := by
      rw [List.take_append_drop]
      exact hnd
    exact (List.nodup_append.mp hd).2.2 hc hc'

/-- Witness for C6: dealing two cards from a three-card deck. -/
theorem Deal_takes_prefix_witness :
    (0 : Int) ≤ 2 ∧ (2 : Int) ≤ (([⟨"♠", 1⟩, ⟨"♥", 13⟩, ⟨"♦", 9⟩] : Deck).length : Int) ∧
    ∃ cards rest,
      Deck.Deal [⟨"♠", 1⟩, ⟨"♥", 13⟩, ⟨"♦", 9⟩] 2 = .done (cards, rest) ∧
      cards ++ rest = [⟨"♠", 1⟩, ⟨"♥", 13⟩, ⟨"♦", 9⟩] :=
  ⟨by decide, by decide,
    let ⟨cards, rest, h1, _, _, _, _, h6, _⟩ :=
      Deal_takes_prefix [⟨"♠", 1⟩, ⟨"♥", 13⟩, ⟨"♦", 9⟩] 2 (by decide) (by decide)
    ⟨cards, rest, h1, h6⟩⟩

/-- C7: over-drawing is a runtime panic, never a truncation: for `n > len d`
`Deal n` panics, returning no cards and leaving the deck as it was, and on an
empty deck `Hit` on either hand panics and leaves the whole game (both hands
included) as it was. -/
theorem overdraw_panics :
    (∀ (d : Deck) (n : Int), (d.length : Int) < n → d.Deal n = .panicked d) ∧
    (∀ (g : Game) (w : Who), g.Deck = [] → g.Hit w = .panicked g) :=
  ⟨fun d n h => Deal_out_of_range d n (Or.inr h), Hit_nil⟩

/-- Witness for C7: dealing three cards from a two-card deck, and hitting the
dealer on an empty deck. -/
theorem overdraw_panics_witness :
    ((([⟨"♠", 1⟩, ⟨"♥", 13⟩] : Deck).length : Int) < 3 ∧
      Deck.Deal [⟨"♠", 1⟩, ⟨"♥", 13⟩] 3 = .panicked [⟨"♠", 1⟩, ⟨"♥", 13⟩]) ∧
    ((Game.mk [] ⟨[⟨"♦", 9⟩], 9, false⟩ ⟨[], 0, false⟩ false).Deck = [] ∧
      (Game.mk [] ⟨[⟨"♦", 9⟩], 9, false⟩ ⟨[], 0, false⟩ false).Hit Who.dealer
        = .panicked (Game.mk [] ⟨[⟨"♦", 9⟩], 9, false⟩ ⟨[], 0, false⟩ false)) :=
  ⟨⟨by decide, overdraw_panics.1 _ 3 (by decide)⟩, ⟨rfl, overdraw_panics.2 _ Who.dealer rfl⟩⟩

/-! ## Stand -/

theorem dealerLoop_stop (g : Game) (h : g.Dealer.mustHit = false) :
    g.dealerLoop = .done g := by
  rw [Game.dealerLoop]
  simp [h]

theorem dealerLoop_panic (g : Game) (h : g.Dealer.mustHit = true) (hd : g.Deck = []) :
    g.dealerLoop = .panicked g := by
  rw [Game.dealerLoop]
  simp only [h, if_true]
  split
  · next s hs =>
    rw [Hit_nil g Who.dealer hd] at hs
    cases hs
    rfl
  · next g1 hs =>
    rw [Hit_nil g Who.dealer hd] at hs
    cases hs

theorem dealerLoop_hit (g : Game) (c : Card) (rest : Deck)
    (h : g.Dealer.mustHit = true) (hd : g.Deck = c :: rest) :
    g.dealerLoop = Game.dealerLoop
      { g with Deck := rest
               Dealer := Hand.Score { g.Dealer with Cards := g.Dealer.Cards ++ [c] } } := by
  rw [Game.dealerLoop]
  simp only [h, if_true]
  split
  · next s hs =>
    rw [Hit_cons g Who.dealer c rest hd] at hs
    cases hs
  · next g1 hs =>
    rw [Hit_cons g Who.dealer c rest hd] at hs
    cases hs
    rfl

theorem dealerAfter_cons (h : Hand) (c : Card) (cs : List Card) :
    dealerAfter h (c :: cs)
      = dealerAfter (Hand.Score { h with Cards := h.Cards ++ [c] }) cs := rfl

theorem dealerAfter_length (h : Hand) (dealt : List Card) :
    (dealerAfter h dealt).Cards.length = h.Cards.length + dealt.length := by
  induction dealt generalizing h with
  | nil => rfl
  | cons c cs ih =>
    rw [dealerAfter_cons, ih, Score_Cards]
    simp
    omega

theorem dealerLoop_done_trace (deck : Deck) :
    ∀ (g g' : Game), g.Deck = deck → g.dealerLoop = .done g' →
      g'.Done = g.Done ∧ g'.Player = g.Player ∧ g'.Dealer.mustHit = false ∧
      ∃ dealt, g.Deck = dealt ++ g'.Deck ∧ g'.Dealer = dealerAfter g.Dealer dealt ∧
        ∀ k, k < dealt.length → (dealerAfter g.Dealer (dealt.take k)).mustHit = true := by
  induction deck with
  | nil =>
    intro g g' hd hrun
    cases hm : g.Dealer.mustHit with
    | false =>
      rw [dealerLoop_stop g hm] at hrun
      cases hrun
      exact ⟨rfl, rfl, hm, [], by simp, rfl, by simp⟩
    | true =>
      rw [dealerLoop_panic g hm hd] at hrun
      cases hrun
  | cons c rest ih =>
    intro g g' hd hrun
    cases hm : g.Dealer.mustHit with
    | false =>
      rw [dealerLoop_stop g hm] at hrun
      cases hrun
      exact ⟨rfl, rfl, hm, [], by simp, rfl, by simp⟩
    | true =>
      rw [dealerLoop_hit g c rest hm hd] at hrun
      obtain ⟨h1, h2, h3, dealt, h4, h5, h6⟩ := ih _ g' rfl hrun
      refine ⟨h1, h2, h3, c :: dealt, ?_, ?_, ?_⟩
      · simp only at h4
        rw [hd, h4]
        rfl
      · rw [dealerAfter_cons]
        exact h5
      · intro k hk
        cases k with
        | zero => simpa [dealerAfter] using hm
        | succ k =>
          rw [List.take_succ_cons, dealerAfter_cons]
          exact h6 k (by simpa using hk)

theorem mustHit_false_iff (h : Hand) :
    h.mustHit = false ↔ (h.Total > 17 ∨ (h.Total = 17 ∧ h.Soft = false)) := by
  unfold Hand.mustHit
  cases h.Soft <;> simp <;> omega

/-- C4: when `Stand` returns, `Done` is true and the dealer stands (`Total > 17`,
or `Total = 17` and not soft); the cards dealt to the dealer are a prefix
`dealt` of the deck, re-scored after each card, and before each of them the
dealer had `Total < 17` or a soft 17, so a further card is dealt exactly as
long as that condition holds; the player is untouched.  From a soft 17 with a
non-empty deck the first iteration deals the top card to the dealer, so a
completed `Stand` has dealt at least one card; from a hard 17 `Stand` returns at
once with dealer hand and deck unchanged. -/
theorem Stand_dealer_policy (g : Game) :
    (∀ g', g.Stand = .done g' →
      g'.Done = true ∧
      (g'.Dealer.Total > 17 ∨ (g'.Dealer.Total = 17 ∧ g'.Dealer.Soft = false)) ∧
      g'.Player = g.Player ∧
      ∃ dealt, g.Deck = dealt ++ g'.Deck ∧ g'.Dealer = dealerAfter g.Dealer dealt ∧
        (∀ k, k < dealt.length →
          ((dealerAfter g.Dealer (dealt.take k)).Total < 17 ∨
            ((dealerAfter g.Dealer (dealt.take k)).Total = 17 ∧
              (dealerAfter g.Dealer (dealt.take k)).Soft = true))) ∧
        (g.Dealer.Total = 17 ∧ g.Dealer.Soft = true →
          1 ≤ dealt.length ∧
          g'.Dealer.Cards.length = g.Dealer.Cards.length + dealt.length)) ∧
    (g.Dealer.Total = 17 ∧ g.Dealer.Soft = true → g.Deck ≠ [] →
      ∃ c rest, g.Deck = c :: rest ∧
        g.Stand = Game.dealerLoop
          { Deck := rest
            Dealer := Hand.Score { g.Dealer with Cards := g.Dealer.Cards ++ [c] }
            Player := g.Player
            Done := true }) ∧
    (g.Dealer.Total = 17 ∧ g.Dealer.Soft = false →
      g.Stand = .done { g with Done := true }) := by
  refine ⟨?_, ?_, ?_⟩
  · intro g' hrun
    unfold Game.Stand at hrun
    obtain ⟨h1, h2, h3, dealt, h4, h5, h6⟩ :=
      dealerLoop_done_trace g.Deck { g with Done := true } g' rfl hrun
    simp only at h1 h2 h4 h5 h6
    refine ⟨h1, (mustHit_false_iff _).mp h3, h2, dealt, h4, h5, ?_, ?_⟩
    · intro k hk
      have := h6 k hk
      simpa [Hand.mustHit] using this
    · intro hh
      constructor
      · cases dealt with
        | nil =>
          simp only [dealerAfter, List.foldl_nil] at h5
          rw [h5] at h3
          simp [Hand.mustHit, hh.1, hh.2] at h3
        | cons c cs => simp
      · rw [h5]
        exact dealerAfter_length g.Dealer dealt
  · intro hh hne
    cases hd : g.Deck with
    | nil => exact absurd hd hne
    | cons c rest =>
      refine ⟨c, rest, rfl, ?_⟩
      unfold Game.Stand
      rw [dealerLoop_hit { g with Done := true } c rest (by simp [Hand.mustHit, hh.1, hh.2]) hd]
  · intro hh
    unfold Game.Stand
    exact dealerLoop_stop _ (by simp [Hand.mustHit, hh.1, hh.2])

/-- Witness for C4: the dealer holds Ace, 6 (soft 17) and the deck is 10, King;
`Stand` deals the 10, reaching a hard 17, and stops with the King still in the
deck. -/
theorem Stand_dealer_policy_witness :
    (Game.mk [⟨"♦", 10⟩, ⟨"♣", 13⟩] ⟨[⟨"♠", 1⟩, ⟨"♥", 6⟩], 17, true⟩
        ⟨[⟨"♠", 10⟩, ⟨"♥", 9⟩], 19, false⟩ false).Stand
      = .done (Game.mk [⟨"♣", 13⟩] ⟨[⟨"♠", 1⟩, ⟨"♥", 6⟩, ⟨"♦", 10⟩], 17, false⟩
          ⟨[⟨"♠", 10⟩, ⟨"♥", 9⟩], 19, false⟩ true) ∧
    (Game.mk [⟨"♣", 13⟩] ⟨[⟨"♠", 1⟩, ⟨"♥", 6⟩, ⟨"♦", 10⟩], 17, false⟩
        ⟨[⟨"♠", 10⟩, ⟨"♥", 9⟩], 19, false⟩ true).Done = true ∧
    ((Game.mk [⟨"♣", 13⟩] ⟨[⟨"♠", 1⟩, ⟨"♥", 6⟩, ⟨"♦", 10⟩], 17, false⟩
        ⟨[⟨"♠", 10⟩, ⟨"♥", 9⟩], 19, false⟩ true).Dealer.Total > 17 ∨
      ((Game.mk [⟨"♣", 13⟩] ⟨[⟨"♠", 1⟩, ⟨"♥", 6⟩, ⟨"♦", 10⟩], 17, false⟩
          ⟨[⟨"♠", 10⟩, ⟨"♥", 9⟩], 19, false⟩ true).Dealer.Total = 17 ∧
        (Game.mk [⟨"♣", 13⟩] ⟨[⟨"♠", 1⟩, ⟨"♥", 6⟩, ⟨"♦", 10⟩], 17, false⟩
          ⟨[⟨"♠", 10⟩, ⟨"♥", 9⟩], 19, false⟩ true).Dealer.Soft = false)) :=
  have hrun :
      (Game.mk [⟨"♦", 10⟩, ⟨"♣", 13⟩] ⟨[⟨"♠", 1⟩, ⟨"♥", 6⟩], 17, true⟩
          ⟨[⟨"♠", 10⟩, ⟨"♥", 9⟩], 19, false⟩ false).Stand
        = .done (Game.mk [⟨"♣", 13⟩] ⟨[⟨"♠", 1⟩, ⟨"♥", 6⟩, ⟨"♦", 10⟩], 17, false⟩
            ⟨[⟨"♠", 10⟩, ⟨"♥", 9⟩], 19, false⟩ true) := by
    unfold Game.Stand
    rw [dealerLoop_hit _ ⟨"♦", 10⟩ [⟨"♣", 13⟩] (by decide) rfl]
    exact dealerLoop_stop _ (by decide)
  have h := (Stand_dealer_policy _).1 _ hrun
  ⟨hrun, h.1, h.2.1⟩

/-! ## Shuffle and NewGame -/

theorem swapAt_perm (d : Deck) (i j : Nat) : List.Perm (swapAt d i j) d := by
  unfold swapAt
  split
  · next a b hi hj =>
    obtain ⟨hi', rfl⟩ := List.getElem?_eq_some_iff.mp hi
    obtain ⟨hj', rfl⟩ := List.getElem?_eq_some_iff.mp hj
    rw [List.perm_iff_count]
    intro x
    have hj2 : j < (d.set i d[j]).length := by simpa using hj'
    rw [List.count_set _ _ _ _ hj2, List.count_set _ _ _ _ hi']
    have hget : (d.set i d[j])[j] = d[j] := by
      rw [List.getElem_set]
      split_ifs <;> rfl
    rw [hget]
    have hpos : (if (d[i] == x) = true then 1 else 0) ≤ d.count x := by
      split_ifs with hx
      · have hx' : d[i] = x := by simpa using hx
        have : x ∈ d := hx' ▸ List.getElem_mem hi'
        exact List.count_pos_iff.mpr this
      · exact Nat.zero_le _
    omega
  · exact List.Perm.refl d

theorem foldl_swapAt_perm (rnd : (i : Nat) → Fin (i + 1)) (idx : List Nat) :
    ∀ d : Deck, List.Perm (idx.foldl (fun acc i => swapAt acc i (rnd i).val) d) d := by
  induction idx with
  | nil => intro d; exact List.Perm.refl d
  | cons i is ih =>
    intro d
    exact (ih _).trans (swapAt_perm d i _)

theorem Shuffle_perm (d : Deck) (rnd : (i : Nat) → Fin (i + 1)) :
    List.Perm (d.Shuffle rnd) d :=
  foldl_swapAt_perm rnd _ d

theorem swapAt_in_range (d : Deck) (i j : Nat) (hi : i < d.length) (hj : j ≤ i) :
    swapAt d i j = (d.set i (d.get ⟨j, by omega⟩)).set j (d.get ⟨i, hi⟩) := by
  have hj' : j < d.length := by omega
  simp [swapAt, List.getElem?_eq_getElem hi, List.getElem?_eq_getElem hj']

/-- C9: for every deck and every sequence of draws `rnd i ∈ [0, i]`, the deck
after `Shuffle` is a permutation of the deck before: every card occurs the same
number of times before and after, and the length is unchanged. -/
theorem Shuffle_is_permutation (d : Deck) (rnd : (i : Nat) → Fin (i + 1)) :
    List.Perm (d.Shuffle rnd) d ∧
    (∀ c : Card, (d.Shuffle rnd).count c = d.count c) ∧
    (d.Shuffle rnd).length = d.length :=
  ⟨Shuffle_perm d rnd, fun _ => (Shuffle_perm d rnd).count_eq _, (Shuffle_perm d rnd).length_eq⟩

set_option maxRecDepth 100000 in
theorem fill_count :
    ∀ s ∈ suits, ∀ r ∈ List.range' 1 13,
      NewGame.fill.1.count ⟨s, (r : Int)⟩ = 1 := by
  decide

set_option maxRecDepth 100000 in
theorem fill_cards :
    NewGame.fill.1.length = 52 ∧ NewGame.fill.2 = 52 ∧ NewGame.fill.1.Nodup ∧
    ∀ c ∈ NewGame.fill.1, c.Suit ∈ suits ∧ 1 ≤ c.Rank ∧ c.Rank ≤ 13 := by
  decide

theorem NewGame_deck_perm (rnd : (i : Nat) → Fin (i + 1)) :
    List.Perm (NewGame rnd).Deck NewGame.fill.1 := by
  simp only [NewGame]
  exact Shuffle_perm NewGame.fill.1 rnd

theorem NewGame_deck_length (rnd : (i : Nat) → Fin (i + 1)) :
    (NewGame rnd).Deck.length = 52 := by
  rw [(NewGame_deck_perm rnd).length_eq]
  exact fill_cards.1

/-- C8: whatever the draws of the shuffle, the game returned by `NewGame` has a
deck of exactly 52 cards in which each of the 4 x 13 combinations of a suit
♠, ♥, ♦, ♣ and a rank 1..13 occurs exactly once (and nothing else occurs), both
hands have no cards (with `Total = 0`, `Soft = false`), and `Done` is false. -/
theorem NewGame_full_deck (rnd : (i : Nat) → Fin (i + 1)) :
    (NewGame rnd).Deck.length = 52 ∧
    (∀ s ∈ ["♠", "♥", "♦", "♣"], ∀ r : Int, 1 ≤ r → r ≤ 13 →
      (NewGame rnd).Deck.count ⟨s, r⟩ = 1) ∧
    (NewGame rnd).Deck.Nodup ∧
    (∀ c ∈ (NewGame rnd).Deck, c.Suit ∈ ["♠", "♥", "♦", "♣"] ∧ 1 ≤ c.Rank ∧ c.Rank ≤ 13) ∧
    (NewGame rnd).Player = ⟨[], 0, false⟩ ∧
    (NewGame rnd).Dealer = ⟨[], 0, false⟩ ∧
    (NewGame rnd).Done = false := by
  have hp := NewGame_deck_perm rnd
  refine ⟨?_, ?_, ?_, ?_, rfl, rfl, rfl⟩
  · rw [hp.length_eq]
    exact fill_cards.1
  · intro s hs r h1 h13
    rw [hp.count_eq]
    have hr : r.toNat ∈ List.range' 1 13 := by
      rw [List.mem_range'_1]
      omega
    have := fill_count s hs r.toNat hr
    rwa [Int.toNat_of_nonneg (by omega)] at this
  · exact hp.nodup_iff.mpr fill_cards.2.2.1
  · intro c hc
    exact fill_cards.2.2.2 c (hp.mem_iff.mp hc)

/-- Witness for C8: with every draw equal to 0, the Queen of hearts occurs once
in the new deck. -/
theorem NewGame_full_deck_witness :
    "♥" ∈ ["♠", "♥", "♦", "♣"] ∧ (1 : Int) ≤ 12 ∧ (12 : Int) ≤ 13 ∧
    (NewGame (fun _ => 0)).Deck.count ⟨"♥", 12⟩ = 1 :=
  ⟨by decide, by decide, by decide,
    (NewGame_full_deck (fun _ => 0)).2.1 "♥" (by decide) 12 (by decide) (by decide)⟩

/-! ## No stale totals -/

theorem Score_idem (h : Hand) : h.Score.Score = h.Score := by
  rw [Score_eq h.Score, Score_Cards]
  exact (Score_eq h).symm

theorem Hit_keeps_scored (g g' : Game) (w : Who) (hrun : g.Hit w = .done g')
    (hp : g.Player.Score = g.Player) (hd : g.Dealer.Score = g.Dealer) :
    g'.Player.Score = g'.Player ∧ g'.Dealer.Score = g'.Dealer := by
  cases hdeck : g.Deck with
  | nil =>
    rw [Hit_nil g w hdeck] at hrun
    cases hrun
  | cons c rest =>
    rw [Hit_cons g w c rest hdeck] at hrun
    cases hrun
    cases w
    · exact ⟨Score_idem _, hd⟩
    · exact ⟨hp, Score_idem _⟩

theorem dealerLoop_keeps_scored (deck : Deck) :
    ∀ (g r : Game), g.Deck = deck →
      g.Player.Score = g.Player → g.Dealer.Score = g.Dealer →
      (g.dealerLoop = .done r ∨ g.dealerLoop = .panicked r) →
      r.Player.Score = r.Player ∧ r.Dealer.Score = r.Dealer := by
  induction deck with
  | nil =>
    intro g r hdeck hp hd hrun
    cases hm : g.Dealer.mustHit with
    | false =>
      rw [dealerLoop_stop g hm] at hrun
      rcases hrun with hrun | hrun <;> cases hrun
      exact ⟨hp, hd⟩
    | true =>
      rw [dealerLoop_panic g hm hdeck] at hrun
      rcases hrun with hrun | hrun <;> cases hrun
      exact ⟨hp, hd⟩
  | cons c rest ih =>
    intro g r hdeck hp hd hrun
    cases hm : g.Dealer.mustHit with
    | false =>
      rw [dealerLoop_stop g hm] at hrun
      rcases hrun with hrun | hrun <;> cases hrun
      exact ⟨hp, hd⟩
    | true =>
      rw [dealerLoop_hit g c rest hm hdeck] at hrun
      exact ih { g with Deck := rest
                        Dealer := Hand.Score { g.Dealer with Cards := g.Dealer.Cards ++ [c] } }
        r rfl hp (Score_idem _) hrun

theorem Reachable_scored (g : Game) (h : Reachable g) :
    g.Player.Score = g.Player ∧ g.Dealer.Score = g.Dealer := by
  induction h with
  | new rnd => exact ⟨rfl, rfl⟩
  | hit g g' w _ hrun ih => exact Hit_keeps_scored g g' w hrun ih.1 ih.2
  | stand g g' _ hrun ih =>
    exact dealerLoop_keeps_scored g.Deck { g with Done := true } g' rfl ih.1 ih.2 (Or.inl hrun)
  | standPanic g g' _ hrun ih =>
    exact dealerLoop_keeps_scored g.Deck { g with Done := true } g' rfl ih.1 ih.2 (Or.inr hrun)

/-- C10: in every game state reachable from a `NewGame` state by `Hit` calls that
return (on either hand) and `Stand` calls, the stored `Total` and `Soft` of the
player and of the dealer are the values `Score` computes from the hand's
current cards. -/
theorem no_stale_totals (g : Game) (h : Reachable g) :
    g.Player.Total = g.Player.Score.Total ∧ g.Player.Soft = g.Player.Score.Soft ∧
    g.Dealer.Total = g.Dealer.Score.Total ∧ g.Dealer.Soft = g.Dealer.Score.Soft := by
  obtain ⟨hp, hd⟩ := Reachable_scored g h
  exact ⟨congrArg Hand.Total hp.symm, congrArg Hand.Soft hp.symm,
    congrArg Hand.Total hd.symm, congrArg Hand.Soft hd.symm⟩

/-- Witness for C10: a state reached from a new game by one `Hit` on the
player. -/
theorem no_stale_totals_witness :
    ∃ g, Reachable g ∧ g.Player.Cards.length = 1 ∧
      g.Player.Total = g.Player.Score.Total ∧ g.Player.Soft = g.Player.Score.Soft ∧
      g.Dealer.Total = g.Dealer.Score.Total ∧ g.Dealer.Soft = g.Dealer.Score.Soft :=
  have hne : (NewGame (fun _ => 0)).Deck ≠ [] := fun h =>
    absurd (NewGame_deck_length (fun _ => 0)) (by rw [h]; decide)
  let ⟨g', hrun, hcards⟩ := Hit_returns (NewGame (fun _ => 0)) Who.player hne
  have hr : Reachable g' := Reachable.hit _ g' Who.player (Reachable.new _) hrun
  ⟨g', hr, hcards, no_stale_totals g' hr⟩

/-! ## Further properties of Result, Score and Card.String -/

/-- C14: whenever the dealer's `Total` exceeds 21, `Result` is the player win
by dealer bust, whatever the player's `Total` is. -/
theorem Result_dealer_bust (g : Game) (h : g.Dealer.Total > 21) :
    g.Result = "You win! Dealer bust." := by
  unfold Game.Result
  rw [if_pos h]

/-- Witness for C14: the dealer at 24 against a player at 30. -/
theorem Result_dealer_bust_witness :
    (Game.mk [] ⟨[⟨"♠", 10⟩, ⟨"♥", 4⟩, ⟨"♦", 10⟩], 24, false⟩
        ⟨[⟨"♣", 10⟩, ⟨"♣", 13⟩, ⟨"♥", 10⟩], 30, false⟩ true).Dealer.Total > 21 ∧
    (Game.mk [] ⟨[⟨"♠", 10⟩, ⟨"♥", 4⟩, ⟨"♦", 10⟩], 24, false⟩
        ⟨[⟨"♣", 10⟩, ⟨"♣", 13⟩, ⟨"♥", 10⟩], 30, false⟩ true).Result
      = "You win! Dealer bust." :=
  ⟨by decide, Result_dealer_bust _ (by decide)⟩

/-- C15: scoring is idempotent: scoring a hand twice gives the same hand (same
`Cards`, `Total` and `Soft`) as scoring it once, and the result does not depend
on the `Total` and `Soft` stored before the call. -/
theorem Score_idempotent (h : Hand) :
    h.Score.Score = h.Score ∧
    h.Score.Cards = h.Cards ∧
    (∀ (t : Int) (b : Bool), Hand.Score ⟨h.Cards, t, b⟩ = h.Score) :=
  ⟨Score_idem h, Score_Cards h, fun t b => Score_congr h.Cards t h.Total b h.Soft⟩

/-- C16: for every suit symbol `s`, `Card.String` renders rank 1 as "A", ranks
2..10 as their decimal numeral and ranks 11, 12, 13 as "J", "Q", "K", each
immediately followed by `s`; the 10 of hearts renders as "10♥". -/
theorem Card_String_renders (s : String) :
    Card.String ⟨s, 1⟩ = "A" ++ s ∧
    Card.String ⟨s, 2⟩ = "2" ++ s ∧
    Card.String ⟨s, 3⟩ = "3" ++ s ∧
    Card.String ⟨s, 4⟩ = "4" ++ s ∧
    Card.String ⟨s, 5⟩ = "5" ++ s ∧
    Card.String ⟨s, 6⟩ = "6" ++ s ∧
    Card.String ⟨s, 7⟩ = "7" ++ s ∧
    Card.String ⟨s, 8⟩ = "8" ++ s ∧
    Card.String ⟨s, 9⟩ = "9" ++ s ∧
    Card.String ⟨s, 10⟩ = "10" ++ s ∧
    Card.String ⟨s, 11⟩ = "J" ++ s ∧
    Card.String ⟨s, 12⟩ = "Q" ++ s ∧
    Card.String ⟨s, 13⟩ = "K" ++ s ∧
    Card.String ⟨"♥", 10⟩ = "10♥" := by
  refine ⟨?_, ?_, ?_, ?_, ?_, ?_, ?_, ?_, ?_, ?_, ?_, ?_, ?_, ?_⟩ <;>
    first
    | decide
    | (simp [Card.String, rankStrings]; done)
    | (simp [Card.String, rankStrings]; rfl)

theorem hasAce_perm (l₁ l₂ : List Card) (hp : List.Perm l₁ l₂) : hasAce l₁ = hasAce l₂ := by
  rw [Bool.eq_iff_iff]
  simp only [hasAce, List.any_eq_true]
  constructor
  · rintro ⟨c, hc, h1⟩
    exact ⟨c, hp.mem_iff.mp hc, h1⟩
  · rintro ⟨c, hc, h1⟩
    exact ⟨c, hp.mem_iff.mpr hc, h1⟩

theorem Score_perm (h h' : Hand) (hp : List.Perm h.Cards h'.Cards) :
    h.Score.Total = h'.Score.Total ∧ h.Score.Soft = h'.Score.Soft := by
  have hs : (h.Cards.map Hand.cardPoints).sum = (h'.Cards.map Hand.cardPoints).sum :=
    (hp.map _).sum_eq
  have ha := hasAce_perm _ _ hp
  rw [Score_eq h, Score_eq h', hs, ha]
  split_ifs <;> exact ⟨rfl, rfl⟩

/-- C19: `Score` does not depend on the order of the cards: two hands whose
card sequences are permutations of each other get the same `Total` and the
same `Soft`. -/
theorem Score_order_independent (h h' : Hand) (hp : List.Perm h.Cards h'.Cards) :
    h.Score.Total = h'.Score.Total ∧ h.Score.Soft = h'.Score.Soft :=
  Score_perm h h' hp

/-- Witness for C19: Ace, 9, Ace against 9, Ace, Ace. -/
theorem Score_order_independent_witness :
    List.Perm (Hand.mk [⟨"♠", 1⟩, ⟨"♦", 9⟩, ⟨"♥", 1⟩] 0 false).Cards
      (Hand.mk [⟨"♦", 9⟩, ⟨"♥", 1⟩, ⟨"♠", 1⟩] 7 true).Cards ∧
    (Hand.Score ⟨[⟨"♠", 1⟩, ⟨"♦", 9⟩, ⟨"♥", 1⟩], 0, false⟩).Total
      = (Hand.Score ⟨[⟨"♦", 9⟩, ⟨"♥", 1⟩, ⟨"♠", 1⟩], 7, true⟩).Total ∧
    (Hand.Score ⟨[⟨"♠", 1⟩, ⟨"♦", 9⟩, ⟨"♥", 1⟩], 0, false⟩).Soft
      = (Hand.Score ⟨[⟨"♦", 9⟩, ⟨"♥", 1⟩, ⟨"♠", 1⟩], 7, true⟩).Soft :=
  have hp : List.Perm (Hand.mk [⟨"♠", 1⟩, ⟨"♦", 9⟩, ⟨"♥", 1⟩] 0 false).Cards
      (Hand.mk [⟨"♦", 9⟩, ⟨"♥", 1⟩, ⟨"♠", 1⟩] 7 true).Cards := by decide
  ⟨hp, Score_order_independent _ _ hp⟩

/-! ## The dealer loop in full: termination, frame, conservation -/

theorem dealerAfter_Cards (h : Hand) (dealt : List Card) :
    (dealerAfter h dealt).Cards = h.Cards ++ dealt := by
  induction dealt generalizing h with
  | nil => simp [dealerAfter]
  | cons c cs ih =>
    rw [dealerAfter_cons, ih, Score_Cards]
    simp

theorem dealerLoop_trace (deck : Deck) :
    ∀ g : Game, g.Deck = deck →
      ∃ dealt r, g.Deck = dealt ++ r.Deck ∧ r.Dealer = dealerAfter g.Dealer dealt ∧
        r.Player = g.Player ∧ r.Done = g.Done ∧
        (∀ k, k < dealt.length → (dealerAfter g.Dealer (dealt.take k)).mustHit = true) ∧
        ((g.dealerLoop = .done r ∧ r.Dealer.mustHit = false) ∨
          (g.dealerLoop = .panicked r ∧ r.Deck = [] ∧ r.Dealer.mustHit = true)) := by
  induction deck with
  | nil =>
    intro g hd
    cases hm : g.Dealer.mustHit with
    | false =>
      exact ⟨[], g, by simp, rfl, rfl, rfl, by simp, Or.inl ⟨dealerLoop_stop g hm, hm⟩⟩
    | true =>
      exact ⟨[], g, by simp, rfl, rfl, rfl, by simp, Or.inr ⟨dealerLoop_panic g hm hd, hd, hm⟩⟩
  | cons c rest ih =>
    intro g hd
    cases hm : g.Dealer.mustHit with
    | false =>
      exact ⟨[], g, by simp, rfl, rfl, rfl, by simp, Or.inl ⟨dealerLoop_stop g hm, hm⟩⟩
    | true =>
      obtain ⟨dealt, r, h1, h2, h3, h4, h5, h6⟩ :=
        ih { g with Deck := rest
                    Dealer := Hand.Score { g.Dealer with Cards := g.Dealer.Cards ++ [c] } } rfl
      refine ⟨c :: dealt, r, ?_, ?_, h3, h4, ?_, ?_⟩
      · simp only at h1
        rw [hd, h1]
        rfl
      · rw [dealerAfter_cons]
        exact h2
      · intro k hk
        cases k with
        | zero => simpa [dealerAfter] using hm
        | succ k =>
          rw [List.take_succ_cons, dealerAfter_cons]
          exact h5 k (by simpa using hk)
      · rw [dealerLoop_hit g c rest hm hd]
        exact h6

theorem Stand_trace (g : Game) :
    ∃ dealt r, g.Deck = dealt ++ r.Deck ∧ r.Dealer = dealerAfter g.Dealer dealt ∧
      r.Player = g.Player ∧ r.Done = true ∧
      (∀ k, k < dealt.length → (dealerAfter g.Dealer (dealt.take k)).mustHit = true) ∧
      ((g.Stand = .done r ∧ r.Dealer.mustHit = false) ∨
        (g.Stand = .panicked r ∧ r.Deck = [] ∧ r.Dealer.mustHit = true)) :=
  dealerLoop_trace g.Deck { g with Done := true } rfl

/-- C12: `Stand` terminates for every game state: it ends after dealing a prefix
`dealt` of the deck to the dealer, so after at most `len deck` successful hits,
either returning with the dealer at a standing total or panicking on an empty
deck with the dealer still due to hit; the dealer's card count has grown by the
number of hits and the deck has shrunk by it, one card per successful `Hit`. -/
theorem Stand_terminates (g : Game) :
    (∃ dealt r,
      ((g.Stand = .done r ∧
          (r.Dealer.Total > 17 ∨ (r.Dealer.Total = 17 ∧ r.Dealer.Soft = false))) ∨
        (g.Stand = .panicked r ∧ r.Deck = [])) ∧
      g.Deck = dealt ++ r.Deck ∧ r.Dealer.Cards = g.Dealer.Cards ++ dealt ∧
      dealt.length ≤ g.Deck.length ∧
      r.Dealer.Cards.length = g.Dealer.Cards.length + dealt.length ∧
      r.Deck.length + dealt.length = g.Deck.length) ∧
    (∀ g', g.Hit Who.dealer = .done g' →
      g'.Dealer.Cards.length = g.Dealer.Cards.length + 1 ∧
      g'.Deck.length + 1 = g.Deck.length) := by
  constructor
  · obtain ⟨dealt, r, h1, h2, _, _, _, h6⟩ := Stand_trace g
    refine ⟨dealt, r, ?_, h1, ?_, ?_, ?_, ?_⟩
    · rcases h6 with ⟨hrun, hm⟩ | ⟨hrun, hnil, _⟩
      · exact Or.inl ⟨hrun, (mustHit_false_iff _).mp hm⟩
      · exact Or.inr ⟨hrun, hnil⟩
    · rw [h2, dealerAfter_Cards]
    · rw [h1]
      simp
    · rw [h2, dealerAfter_length]
    · rw [h1]
      simp
      omega
  · intro g' hrun
    cases hd : g.Deck with
    | nil =>
      rw [Hit_nil g Who.dealer hd] at hrun
      cases hrun
    | cons c rest =>
      rw [Hit_cons g Who.dealer c rest hd] at hrun
      cases hrun
      simp [Game.setHand, Game.hand, Score_Cards]

/-- Witness for C12: the dealer at 12 with the deck 3, 10: `Stand` deals the 3
(15), then the 10 (bust at 25) and returns. -/
theorem Stand_terminates_witness :
    ∃ (dealt : List Card) (r : Game),
      ((Game.mk [⟨"♦", 3⟩, ⟨"♣", 10⟩] ⟨[⟨"♠", 10⟩, ⟨"♥", 2⟩], 12, false⟩
            ⟨[⟨"♠", 9⟩, ⟨"♥", 9⟩], 18, false⟩ false).Stand = .done r ∨
        (Game.mk [⟨"♦", 3⟩, ⟨"♣", 10⟩] ⟨[⟨"♠", 10⟩, ⟨"♥", 2⟩], 12, false⟩
            ⟨[⟨"♠", 9⟩, ⟨"♥", 9⟩], 18, false⟩ false).Stand = .panicked r) ∧
      dealt.length ≤ 2 ∧ r.Deck.length + dealt.length = 2 :=
  let ⟨⟨dealt, r, h1, _, _, h4, _, h6⟩, _⟩ :=
    Stand_terminates (Game.mk [⟨"♦", 3⟩, ⟨"♣", 10⟩] ⟨[⟨"♠", 10⟩, ⟨"♥", 2⟩], 12, false⟩
      ⟨[⟨"♠", 9⟩, ⟨"♥", 9⟩], 18, false⟩ false)
  ⟨dealt, r, h1.elim (fun h => Or.inl h.1) (fun h => Or.inr h.1), h4, h6⟩

/-! ## Done is not a guard -/

theorem Hit_final_frame (g : Game) (w : Who) :
    (g.Hit w).final.Done = g.Done ∧ (g.Hit w).final.hand w.other = g.hand w.other := by
  cases hd : g.Deck with
  | nil =>
    rw [Hit_nil g w hd]
    exact ⟨rfl, rfl⟩
  | cons c rest =>
    rw [Hit_cons g w c rest hd]
    cases w <;> exact ⟨rfl, rfl⟩

theorem Stand_final_frame (g : Game) :
    g.Stand.final.Done = true ∧ g.Stand.final.Player = g.Player := by
  obtain ⟨dealt, r, _, _, h3, h4, _, h6⟩ := Stand_trace g
  rcases h6 with ⟨hrun, _⟩ | ⟨hrun, _, _⟩ <;> rw [hrun] <;> exact ⟨h4, h3⟩

/-- C11 (counterexample): a game with `Done = true`, the dealer standing at 18
and one card left: `Hit` on the player returns a game with that card moved
from the deck into the player's hand and the total raised from 19 to 29; and a
game with `Done = true` whose dealer is at 12: `Stand` deals to the dealer.  So
neither call leaves every game with `Done = true` unchanged. -/
theorem done_game_is_mutated :
    (Game.mk [⟨"♣", 13⟩] ⟨[⟨"♠", 10⟩, ⟨"♥", 8⟩], 18, false⟩
        ⟨[⟨"♦", 10⟩, ⟨"♦", 9⟩], 19, false⟩ true).Hit Who.player
      = .done (Game.mk [] ⟨[⟨"♠", 10⟩, ⟨"♥", 8⟩], 18, false⟩
          ⟨[⟨"♦", 10⟩, ⟨"♦", 9⟩, ⟨"♣", 13⟩], 29, false⟩ true) ∧
    (Game.mk [⟨"♣", 13⟩] ⟨[⟨"♠", 10⟩, ⟨"♥", 2⟩], 12, false⟩
        ⟨[⟨"♦", 10⟩, ⟨"♦", 9⟩], 19, false⟩ true).Stand
      = .done (Game.mk [] ⟨[⟨"♠", 10⟩, ⟨"♥", 2⟩, ⟨"♣", 13⟩], 22, false⟩
          ⟨[⟨"♦", 10⟩, ⟨"♦", 9⟩], 19, false⟩ true) ∧
    ¬ (∀ g : Game, g.Done = true →
        (∀ w, (g.Hit w).final = g) ∧ g.Stand.final = g) := by
  have hhit :
      (Game.mk [⟨"♣", 13⟩] ⟨[⟨"♠", 10⟩, ⟨"♥", 8⟩], 18, false⟩
          ⟨[⟨"♦", 10⟩, ⟨"♦", 9⟩], 19, false⟩ true).Hit Who.player
        = .done (Game.mk [] ⟨[⟨"♠", 10⟩, ⟨"♥", 8⟩], 18, false⟩
            ⟨[⟨"♦", 10⟩, ⟨"♦", 9⟩, ⟨"♣", 13⟩], 29, false⟩ true) := by
    decide
  refine ⟨hhit, ?_, ?_⟩
  · unfold Game.Stand
    rw [dealerLoop_hit _ ⟨"♣", 13⟩ [] (by decide) rfl]
    exact dealerLoop_stop _ (by decide)
  · intro hall
    have h := (hall (Game.mk [⟨"♣", 13⟩] ⟨[⟨"♠", 10⟩, ⟨"♥", 8⟩], 18, false⟩
      ⟨[⟨"♦", 10⟩, ⟨"♦", 9⟩], 19, false⟩ true) rfl).1 Who.player
    rw [hhit] at h
    exact absurd h (by decide)

/-- C11 (amended): in a game with `Done = true`, `Stand` leaves the deck, both
hands and `Done` unchanged when the dealer is at a standing total, in
particular when it follows a `Stand` that returned; in every case `Stand` ends
with `Done` true and the player's hand untouched.  `Hit` does not look at
`Done`: it ends with `Done` still true and the other hand untouched, and leaves
the whole game unchanged when the deck is empty. -/
theorem done_game_frame (g : Game) (hd : g.Done = true) :
    ((g.Dealer.Total > 17 ∨ (g.Dealer.Total = 17 ∧ g.Dealer.Soft = false)) →
      g.Stand = .done g) ∧
    (∀ g0 : Game, g0.Stand = .done g → g.Stand = .done g) ∧
    (g.Stand.final.Done = true ∧ g.Stand.final.Player = g.Player) ∧
    (∀ w, (g.Hit w).final.Done = true ∧ (g.Hit w).final.hand w.other = g.hand w.other) ∧
    (g.Deck = [] → ∀ w, g.Hit w = .panicked g) := by
  have hself : ({ g with Done := true } : Game) = g := by
    cases g
    simp only at hd
    subst hd
    rfl
  have hstop : g.Dealer.mustHit = false → g.Stand = .done g := by
    intro hm
    unfold Game.Stand
    rw [hself]
    exact dealerLoop_stop g hm
  refine ⟨fun h => hstop ((mustHit_false_iff _).mpr h), ?_, Stand_final_frame g, ?_, ?_⟩
  · intro g0 hrun
    obtain ⟨_, r, _, _, _, _, _, h6⟩ := Stand_trace g0
    rcases h6 with ⟨hrun', hm⟩ | ⟨hrun', _, _⟩
    · rw [hrun] at hrun'
      cases hrun'
      exact hstop hm
    · rw [hrun] at hrun'
      cases hrun'
  · intro w
    have h := Hit_final_frame g w
    exact ⟨h.1.trans hd, h.2⟩
  · intro hnil w
    exact Hit_nil g w hnil

/-- Witness for C11 (amended): the dealer standing at 18 in a finished game. -/
theorem done_game_frame_witness :
    (Game.mk [⟨"♣", 13⟩] ⟨[⟨"♠", 10⟩, ⟨"♥", 8⟩], 18, false⟩
        ⟨[⟨"♦", 10⟩, ⟨"♦", 9⟩], 19, false⟩ true).Done = true ∧
    (Game.mk [⟨"♣", 13⟩] ⟨[⟨"♠", 10⟩, ⟨"♥", 8⟩], 18, false⟩
        ⟨[⟨"♦", 10⟩, ⟨"♦", 9⟩], 19, false⟩ true).Stand
      = .done (Game.mk [⟨"♣", 13⟩] ⟨[⟨"♠", 10⟩, ⟨"♥", 8⟩], 18, false⟩
          ⟨[⟨"♦", 10⟩, ⟨"♦", 9⟩], 19, false⟩ true) :=
  ⟨rfl, (done_game_frame _ rfl).1 (Or.inl (by decide))⟩

/-! ## Card conservation -/

theorem Hit_conserves (g g' : Game) (w : Who) (hrun : g.Hit w = .done g') :
    List.Perm (g'.Deck ++ g'.Player.Cards ++ g'.Dealer.Cards)
      (g.Deck ++ g.Player.Cards ++ g.Dealer.Cards) := by
  cases hd : g.Deck with
  | nil =>
    rw [Hit_nil g w hd] at hrun
    cases hrun
  | cons c rest =>
    rw [Hit_cons g w c rest hd] at hrun
    cases hrun
    cases w
    · simp only [Game.setHand, Game.hand, Score_Cards]
      rw [List.perm_iff_count]
      intro x
      simp [List.count_append, List.count_cons]
      omega
    · simp only [Game.setHand, Game.hand, Score_Cards]
      rw [List.perm_iff_count]
      intro x
      simp [List.count_append, List.count_cons]
      omega

theorem Stand_conserves (g r : Game) (hrun : g.Stand = .done r ∨ g.Stand = .panicked r) :
    List.Perm (r.Deck ++ r.Player.Cards ++ r.Dealer.Cards)
      (g.Deck ++ g.Player.Cards ++ g.Dealer.Cards) := by
  obtain ⟨dealt, r', h1, h2, h3, _, _, h6⟩ := Stand_trace g
  have hr : r = r' := by
    rcases h6 with ⟨h, _⟩ | ⟨h, _, _⟩ <;> rcases hrun with h' | h' <;>
      rw [h] at h' <;> cases h' <;> rfl
  subst hr
  rw [h1, h2, h3, dealerAfter_Cards, List.perm_iff_count]
  intro x
  simp [List.count_append]
  omega

theorem Reachable_conserves (g : Game) (h : Reachable g) :
    List.Perm (g.Deck ++ g.Player.Cards ++ g.Dealer.Cards) NewGame.fill.1 := by
  induction h with
  | new rnd =>
    have hp := NewGame_deck_perm rnd
    have h1 : (NewGame rnd).Player.Cards = [] := rfl
    have h2 : (NewGame rnd).Dealer.Cards = [] := rfl
    rw [h1, h2]
    simpa using hp
  | hit g g' w _ hrun ih => exact (Hit_conserves g g' w hrun).trans ih
  | stand g g' _ hrun ih => exact (Stand_conserves g g' (Or.inl hrun)).trans ih
  | standPanic g g' _ hrun ih => exact (Stand_conserves g g' (Or.inr hrun)).trans ih

/-- C17: in every game state reachable from a `NewGame` state by `Hit` calls
that return and `Stand` calls, the deck followed by the player's cards and the
dealer's cards is a permutation of the 52 cards built by `NewGame`: it has no
duplicate, every combination of a suit ♠, ♥, ♦, ♣ and a rank 1..13 occurs in
it exactly once, and the three lengths add up to 52. -/
theorem cards_conserved (g : Game) (h : Reachable g) :
    List.Perm (g.Deck ++ g.Player.Cards ++ g.Dealer.Cards) NewGame.fill.1 ∧
    (g.Deck ++ g.Player.Cards ++ g.Dealer.Cards).Nodup ∧
    (∀ s ∈ ["♠", "♥", "♦", "♣"], ∀ r : Int, 1 ≤ r → r ≤ 13 →
      (g.Deck ++ g.Player.Cards ++ g.Dealer.Cards).count ⟨s, r⟩ = 1) ∧
    g.Deck.length + g.Player.Cards.length + g.Dealer.Cards.length = 52 := by
  have hp := Reachable_conserves g h
  refine ⟨hp, hp.nodup_iff.mpr fill_cards.2.2.1, ?_, ?_⟩
  · intro s hs r h1 h13
    rw [hp.count_eq]
    have hr : r.toNat ∈ List.range' 1 13 := by
      rw [List.mem_range'_1]
      omega
    have := fill_count s hs r.toNat hr
    rwa [Int.toNat_of_nonneg (by omega)] at this
  · have := hp.length_eq
    rw [fill_cards.1] at this
    simp only [List.length_append] at this
    omega

/-- Witness for C17: a state reached from a new game by one `Hit` on the
dealer. -/
theorem cards_conserved_witness :
    ∃ g, Reachable g ∧ g.Dealer.Cards.length = 1 ∧
      g.Deck.length + g.Player.Cards.length + g.Dealer.Cards.length = 52 :=
  have hne : (NewGame (fun _ => 0)).Deck ≠ [] := fun h =>
    absurd (NewGame_deck_length (fun _ => 0)) (by rw [h]; decide)
  let ⟨g', hrun, hcards⟩ := Hit_returns (NewGame (fun _ => 0)) Who.dealer hne
  have hr : Reachable g' := Reachable.hit _ g' Who.dealer (Reachable.new _) hrun
  ⟨g', hr, hcards, (cards_conserved g' hr).2.2.2⟩

/-! ## Hands with at most one Ace -/

theorem valuations_no_ace (cards : List Card) (h : numAces cards = 0) :
    valuations cards = [rawSum cards] ∧ lowTotal cards = rawSum cards ∧
      hasAce cards = false := by
  induction cards with
  | nil => simp [valuations, rawSum, lowTotal, hasAce]
  | cons c cs ih =>
    have hc : c.Rank ≠ 1 := by
      intro h1
      simp [numAces, List.countP_cons, h1] at h
    have hcs : numAces cs = 0 := by
      simpa [numAces, List.countP_cons, hc] using h
    obtain ⟨h1, h2, h3⟩ := ih hcs
    refine ⟨?_, ?_, ?_⟩
    · simp [valuations, hc, h1, rawSum, add_comm]
    · simp only [lowTotal, rawSum] at h2 ⊢
      simp [hc, h2]
    · simp only [hasAce] at h3 ⊢
      simp [hc, h3]

theorem valuations_one_ace (cards : List Card) (h : numAces cards = 1) :
    (∀ v, v ∈ valuations cards ↔ (v = rawSum cards - 10 ∨ v = rawSum cards)) ∧
      lowTotal cards = rawSum cards - 10 ∧ hasAce cards = true := by
  induction cards with
  | nil => simp [numAces] at h
  | cons c cs ih =>
    by_cases hc : c.Rank = 1
    · have hcs : numAces cs = 0 := by
        simpa [numAces, List.countP_cons, hc] using h
      obtain ⟨h1, h2, _⟩ := valuations_no_ace cs hcs
      refine ⟨?_, ?_, ?_⟩
      · intro v
        simp [valuations, hc, h1, rawSum, rawValue]
        constructor <;> (intro hv; rcases hv with hv | hv <;> [left; right] <;> omega)
      · have hrv : rawValue c = 11 := by simp [rawValue, hc]
        simp only [lowTotal, rawSum] at h2 ⊢
        simp only [List.map_cons, List.sum_cons, hc, if_true, h2, hrv]
        omega
      · simp [hasAce, hc]
    · have hcs : numAces cs = 1 := by
        simpa [numAces, List.countP_cons, hc] using h
      obtain ⟨h1, h2, h3⟩ := ih hcs
      refine ⟨?_, ?_, ?_⟩
      · intro v
        simp only [valuations, hc, if_false, List.mem_map, h1]
        have hsum : rawSum (c :: cs) = rawValue c + rawSum cs := by simp [rawSum]
        rw [hsum]
        constructor
        · rintro ⟨u, hu | hu, rfl⟩
          · left; omega
          · right; omega
        · rintro (hv | hv)
          · exact ⟨rawSum cs - 10, Or.inl rfl, by omega⟩
          · exact ⟨rawSum cs, Or.inr rfl, by omega⟩
      · simp only [lowTotal, rawSum] at h2 ⊢
        simp [hc, h2]
        omega
      · simp only [hasAce] at h3 ⊢
        simp [h3]

theorem Score_Total_rawSum (h : Hand) (hr : ∀ c ∈ h.Cards, 1 ≤ c.Rank ∧ c.Rank ≤ 13) :
    h.Score.Total
      = if rawSum h.Cards > 21 ∧ hasAce h.Cards = true then rawSum h.Cards - 10
        else rawSum h.Cards := by
  rw [Score_eq, sum_cardPoints_eq_rawSum h.Cards hr]
  split_ifs <;> rfl

/-- C18: for a hand of cards with ranks 1..13 and at most one Ace, the `Total`
computed by `Score` is obtainable by counting the Ace as 1 or as 11; when some
such total does not exceed 21 it is the largest one that does not, and
otherwise it is the total with the Ace counted as 1.  Hence `Total > 21` holds
exactly when every valuation of the Ace busts. -/
theorem Score_standard_value (h : Hand)
    (hr : ∀ c ∈ h.Cards, 1 ≤ c.Rank ∧ c.Rank ≤ 13) (ha : numAces h.Cards ≤ 1) :
    h.Score.Total ∈ valuations h.Cards ∧
    ((∃ v ∈ valuations h.Cards, v ≤ 21) →
      h.Score.Total ≤ 21 ∧ ∀ v ∈ valuations h.Cards, v ≤ 21 → v ≤ h.Score.Total) ∧
    ((∀ v ∈ valuations h.Cards, 21 < v) → h.Score.Total = lowTotal h.Cards) ∧
    (h.Score.Total > 21 ↔ ∀ v ∈ valuations h.Cards, 21 < v) := by
  have hT := Score_Total_rawSum h hr
  rcases Nat.lt_or_ge (numAces h.Cards) 1 with h0 | h1
  · obtain ⟨hv, hl, hace⟩ := valuations_no_ace h.Cards (by omega)
    simp only [hace, Bool.false_eq_true, and_false, if_false] at hT
    rw [hv, hl, hT]
    simp
  · obtain ⟨hv, hl, hace⟩ := valuations_one_ace h.Cards (by omega)
    simp only [hace, and_true] at hT
    rw [hl]
    refine ⟨?_, ?_, ?_, ?_⟩
    · rw [hv]
      split_ifs at hT <;> omega
    · rintro ⟨v, hmem, hle⟩
      rw [hv] at hmem
      constructor
      · split_ifs at hT <;> omega
      · intro u hu hu21
        rw [hv] at hu
        split_ifs at hT <;> omega
    · intro hall
      have := hall (rawSum h.Cards) ((hv _).mpr (Or.inr rfl))
      split_ifs at hT <;> omega
    · constructor
      · intro hgt u hu
        rw [hv] at hu
        split_ifs at hT <;> omega
      · intro hall
        have h1 := hall (rawSum h.Cards) ((hv _).mpr (Or.inr rfl))
        have h2 := hall (rawSum h.Cards - 10) ((hv _).mpr (Or.inl rfl))
        split_ifs at hT <;> omega

/-- Witness for C18: Ace, 6, 9 is worth 16, the Ace counted as 1. -/
theorem Score_standard_value_witness :
    (∀ c ∈ (Hand.mk [⟨"♠", 1⟩, ⟨"♥", 6⟩, ⟨"♦", 9⟩] 0 false).Cards, 1 ≤ c.Rank ∧ c.Rank ≤ 13) ∧
    numAces (Hand.mk [⟨"♠", 1⟩, ⟨"♥", 6⟩, ⟨"♦", 9⟩] 0 false).Cards ≤ 1 ∧
    (Hand.Score ⟨[⟨"♠", 1⟩, ⟨"♥", 6⟩, ⟨"♦", 9⟩], 0, false⟩).Total = 16 ∧
    (Hand.Score ⟨[⟨"♠", 1⟩, ⟨"♥", 6⟩, ⟨"♦", 9⟩], 0, false⟩).Total
      ∈ valuations [⟨"♠", 1⟩, ⟨"♥", 6⟩, ⟨"♦", 9⟩] :=
  have hr : ∀ c ∈ (Hand.mk [⟨"♠", 1⟩, ⟨"♥", 6⟩, ⟨"♦", 9⟩] 0 false).Cards,
      1 ≤ c.Rank ∧ c.Rank ≤ 13 := by decide
  have ha : numAces (Hand.mk [⟨"♠", 1⟩, ⟨"♥", 6⟩, ⟨"♦", 9⟩] 0 false).Cards ≤ 1 := by decide
  ⟨hr, ha, by decide, (Score_standard_value _ hr ha).1⟩

/-! ## One deck suffices for a round -/

theorem cardPoints_ge_two (c : Card) (h : 1 ≤ c.Rank) : 2 ≤ Hand.cardPoints c := by
  unfold Hand.cardPoints
  split_ifs <;> omega

theorem sum_cardPoints_ge (cards : List Card) (h : ∀ c ∈ cards, 1 ≤ c.Rank) :
    2 * (cards.length : Int) ≤ (cards.map Hand.cardPoints).sum := by
  induction cards with
  | nil => simp
  | cons c cs ih =>
    have h1 := cardPoints_ge_two c (h c (List.mem_cons_self _ _))
    have h2 := ih (fun x hx => h x (List.mem_cons_of_mem _ hx))
    simp only [List.length_cons, List.map_cons, List.sum_cons]
    push_cast
    omega

/-- A scored hand of cards of rank at least 1 holds at most `(Total + 10) / 2`
cards. -/
theorem scored_length_bound (h : Hand) (hs : h.Score = h) (hr : ∀ c ∈ h.Cards, 1 ≤ c.Rank) :
    2 * (h.Cards.length : Int) ≤ h.Total + 10 := by
  have hsum := sum_cardPoints_ge h.Cards hr
  have ht : h.Total = h.Score.Total := by rw [hs]
  rw [ht, Score_eq]
  split_ifs <;> simp only <;> omega

theorem allCards_length (g : Game) :
    g.allCards.length = g.Deck.length + g.Player.Cards.length + g.Dealer.Cards.length := by
  simp only [Game.allCards, List.length_append]

theorem RoundInv_Hit (g g' : Game) (w : Who) (hinv : RoundInv g) (hrun : g.Hit w = .done g') :
    RoundInv g' := by
  obtain ⟨h1, h2, h3, h4⟩ := hinv
  have hp : List.Perm g'.allCards g.allCards := Hit_conserves g g' w hrun
  obtain ⟨h5, h6⟩ := Hit_keeps_scored g g' w hrun h1 h2
  exact ⟨h5, h6, fun c hc => h3 c (hp.mem_iff.mp hc), hp.length_eq.trans h4⟩

theorem Hit_lengths (g g' : Game) (w : Who) (hrun : g.Hit w = .done g') :
    (g'.hand w).Cards.length = (g.hand w).Cards.length + 1 ∧
    g'.hand w.other = g.hand w.other ∧ g'.Done = g.Done := by
  cases hd : g.Deck with
  | nil =>
    rw [Hit_nil g w hd] at hrun
    cases hrun
  | cons c rest =>
    rw [Hit_cons g w c rest hd] at hrun
    cases hrun
    cases w <;> simp [Game.setHand, Game.hand, Score_Cards, Who.other]

theorem Hit_ok (g : Game) (w : Who) (hne : 0 < g.Deck.length) : ∃ g', g.Hit w = .done g' := by
  have hne' : g.Deck ≠ [] := by
    intro h
    rw [h] at hne
    simp at hne
  obtain ⟨g', h, _⟩ := Hit_returns g w hne'
  exact ⟨g', h⟩

theorem dealerAfter_scored (h : Hand) (dealt : List Card) (hs : h.Score = h) :
    (dealerAfter h dealt).Score = dealerAfter h dealt := by
  induction dealt generalizing h with
  | nil => simpa [dealerAfter] using hs
  | cons c cs ih =>
    rw [dealerAfter_cons]
    exact ih _ (Score_idem _)

theorem mustHit_le (h : Hand) (hm : h.mustHit = true) : h.Total ≤ 17 := by
  unfold Hand.mustHit at hm
  simp at hm
  omega

theorem Stand_ok (g : Game) (hinv : RoundInv g) (hp : g.Player.Cards.length ≤ 16) :
    ∃ g', g.Stand = .done g' ∧ g'.Done = true ∧
      (g'.Dealer.Total > 17 ∨ (g'.Dealer.Total = 17 ∧ g'.Dealer.Soft = false)) ∧
      RoundInv g' := by
  obtain ⟨h1, h2, h3, h4⟩ := hinv
  obtain ⟨dealt, r, t1, t2, t3, t4, _, t6⟩ := Stand_trace g
  have hscored : r.Dealer.Score = r.Dealer := by
    rw [t2]
    exact dealerAfter_scored _ _ h2
  have hcards : r.Dealer.Cards = g.Dealer.Cards ++ dealt := by rw [t2, dealerAfter_Cards]
  rcases t6 with ⟨hrun, hm⟩ | ⟨hrun, hnil, hm⟩
  · have hperm : List.Perm r.allCards g.allCards := Stand_conserves g r (Or.inl hrun)
    refine ⟨r, hrun, t4, (mustHit_false_iff _).mp hm, ?_, hscored,
      fun c hc => h3 c (hperm.mem_iff.mp hc), hperm.length_eq.trans h4⟩
    rw [t3]
    exact h1
  · exfalso
    have hranks : ∀ c ∈ r.Dealer.Cards, 1 ≤ c.Rank := by
      intro c hc
      apply h3 c
      rw [hcards] at hc
      rw [Game.allCards, t1]
      simp only [List.mem_append] at hc ⊢
      tauto
    have hb := scored_length_bound r.Dealer hscored hranks
    have hle := mustHit_le _ hm
    have hlen : r.Dealer.Cards.length = g.Dealer.Cards.length + g.Deck.length := by
      rw [hcards, t1, hnil]
      simp
    rw [allCards_length] at h4
    omega


theorem guardedHits_ok (k : Nat) :
    ∀ g : Game, RoundInv g → g.Dealer.Cards.length = 2 → g.Player.Cards.length ≤ 16 →
      ∃ g', guardedHits k g = .done g' ∧ RoundInv g' ∧ g'.Dealer.Cards.length = 2 ∧
        g'.Player.Cards.length ≤ 16 ∧ g'.Done = g.Done := by
  induction k with
  | zero =>
    intro g hinv hd hp
    exact ⟨g, rfl, hinv, hd, hp, rfl⟩
  | succ k ih =>
    intro g hinv hd hp
    unfold guardedHits
    by_cases ht : g.Player.Total ≤ 21
    · rw [if_pos ht]
      have hb := scored_length_bound g.Player hinv.1
        (fun c hc => hinv.2.2.1 c (by simp [Game.allCards, hc]))
      have hlen := hinv.2.2.2
      rw [allCards_length] at hlen
      obtain ⟨g1, hrun⟩ := Hit_ok g Who.player (by omega)
      obtain ⟨l1, l2, l3⟩ := Hit_lengths g g1 Who.player hrun
      simp only [Game.hand, Who.other] at l1 l2
      obtain ⟨g', r1, r2, r3, r4, r5⟩ :=
        ih g1 (RoundInv_Hit g g1 Who.player hinv hrun) (by rw [l2]; exact hd) (by omega)
      refine ⟨g', ?_, r2, r3, r4, r5.trans l3⟩
      rw [hrun]
      exact r1
    · rw [if_neg ht]
      exact ⟨g, rfl, hinv, hd, hp, rfl⟩

theorem mainLoop_ok (inputs : List String) :
    ∀ g : Game, RoundInv g →
      (g.Done = false → g.Dealer.Cards.length = 2 ∧ g.Player.Cards.length ≤ 15) →
      (g.Done = true →
        (g.Dealer.Total > 17 ∨ (g.Dealer.Total = 17 ∧ g.Dealer.Soft = false))) →
      ∃ g', mainLoop inputs g = .done g' ∧
        (g'.Done = true →
          (g'.Dealer.Total > 17 ∨ (g'.Dealer.Total = 17 ∧ g'.Dealer.Soft = false))) := by
  induction inputs with
  | nil =>
    intro g _ _ hstand
    exact ⟨g, rfl, hstand⟩
  | cons input rest ih =>
    intro g hinv hopen hstand
    unfold mainLoop
    by_cases hdone : g.Done = true
    · rw [if_pos hdone]
      exact ⟨g, rfl, hstand⟩
    · rw [if_neg hdone]
      have hfalse : g.Done = false := by simpa using hdone
      obtain ⟨hd, hp⟩ := hopen hfalse
      have hlen := hinv.2.2.2
      rw [allCards_length] at hlen
      by_cases hh : input = "h"
      · rw [if_pos hh]
        obtain ⟨g1, hrun⟩ := Hit_ok g Who.player (by omega)
        obtain ⟨l1, l2, l3⟩ := Hit_lengths g g1 Who.player hrun
        simp only [Game.hand, Who.other] at l1 l2
        have hinv1 := RoundInv_Hit g g1 Who.player hinv hrun
        rw [hrun]
        simp only [Run.andThen]
        by_cases hb : g1.Player.Total > 21
        · rw [if_pos hb]
          exact ⟨g1, rfl, fun h => by rw [l3, hfalse] at h; cases h⟩
        · rw [if_neg hb]
          have hbound := scored_length_bound g1.Player hinv1.1
            (fun c hc => hinv1.2.2.1 c (by simp [Game.allCards, hc]))
          exact ih g1 hinv1 (fun _ => ⟨by rw [l2]; exact hd, by omega⟩)
            (fun h => by rw [l3, hfalse] at h; cases h)
      · rw [if_neg hh]
        by_cases hs : input = "s"
        · rw [if_pos hs]
          obtain ⟨g1, hrun, hd1, hst, hinv1⟩ := Stand_ok g hinv (by omega)
          rw [hrun]
          simp only [Run.andThen]
          by_cases hb : g1.Player.Total > 21
          · rw [if_pos hb]
            exact ⟨g1, rfl, fun _ => hst⟩
          · rw [if_neg hb]
            exact ih g1 hinv1 (fun h => by rw [hd1] at h; cases h) (fun _ => hst)
        · rw [if_neg hs]
          simp only [Run.andThen]
          by_cases hb : g.Player.Total > 21
          · rw [if_pos hb]
            exact ⟨g, rfl, hstand⟩
          · rw [if_neg hb]
            exact ih g hinv hopen hstand

theorem openingDeal_ok (g : Game) (hinv : RoundInv g)
    (hp : g.Player.Cards = []) (hd : g.Dealer.Cards = []) :
    ∃ g', openingDeal g = .done g' ∧ RoundInv g' ∧
      g'.Player.Cards.length = 2 ∧ g'.Dealer.Cards.length = 2 ∧ g'.Done = g.Done := by
  have hlen := hinv.2.2.2
  rw [allCards_length, hp, hd] at hlen
  simp only [List.length_nil] at hlen
  obtain ⟨g1, hrun1⟩ := Hit_ok g Who.player (by omega)
  obtain ⟨a1, a2, a3⟩ := Hit_lengths g g1 Who.player hrun1
  have i1 := RoundInv_Hit g g1 Who.player hinv hrun1
  have n1 := i1.2.2.2
  simp only [Game.hand, Who.other] at a1 a2
  rw [allCards_length] at n1
  rw [hp] at a1
  rw [a2, hd] at n1
  simp only [List.length_nil] at a1 n1
  obtain ⟨g2, hrun2⟩ := Hit_ok g1 Who.dealer (by omega)
  obtain ⟨b1, b2, b3⟩ := Hit_lengths g1 g2 Who.dealer hrun2
  have i2 := RoundInv_Hit g1 g2 Who.dealer i1 hrun2
  have n2 := i2.2.2.2
  simp only [Game.hand, Who.other] at b1 b2
  rw [allCards_length] at n2
  rw [a2, hd] at b1
  simp only [List.length_nil] at b1
  obtain ⟨g3, hrun3⟩ := Hit_ok g2 Who.player (by rw [b2] at n2; omega)
  obtain ⟨c1, c2, c3⟩ := Hit_lengths g2 g3 Who.player hrun3
  have i3 := RoundInv_Hit g2 g3 Who.player i2 hrun3
  have n3 := i3.2.2.2
  simp only [Game.hand, Who.other] at c1 c2
  rw [allCards_length] at n3
  obtain ⟨g4, hrun4⟩ := Hit_ok g3 Who.dealer (by rw [c2] at n3; rw [b2] at c1; omega)
  obtain ⟨d1, d2, d3⟩ := Hit_lengths g3 g4 Who.dealer hrun4
  have i4 := RoundInv_Hit g3 g4 Who.dealer i3 hrun4
  simp only [Game.hand, Who.other] at d1 d2
  refine ⟨g4, ?_, i4, ?_, ?_, ?_⟩
  · unfold openingDeal
    rw [hrun1]
    simp only [Run.andThen]
    rw [hrun2]
    simp only [Run.andThen]
    rw [hrun3]
    simp only [Run.andThen]
    rw [hrun4]
  · rw [d2, c1, b2, a1]
  · rw [d1, c2, b1]
  · rw [d3, c3, b3, a3]

theorem RoundInv_start (deck : Deck) (hperm : List.Perm deck NewGame.fill.1) :
    RoundInv ⟨deck, ⟨[], 0, false⟩, ⟨[], 0, false⟩, false⟩ := by
  refine ⟨rfl, rfl, ?_, ?_⟩
  · intro c hc
    have hc' : c ∈ deck := by simpa [Game.allCards] using hc
    exact (fill_cards.2.2.2 c (hperm.mem_iff.mp hc')).2.1
  · have := hperm.length_eq
    rw [fill_cards.1] at this
    simpa [Game.allCards] using this

theorem playRound_ok (deck : Deck) (hperm : List.Perm deck NewGame.fill.1)
    (inputs : List String) :
    ∃ g', playRound ⟨deck, ⟨[], 0, false⟩, ⟨[], 0, false⟩, false⟩ inputs = .done g' ∧
      (g'.Done = true →
        (g'.Dealer.Total > 17 ∨ (g'.Dealer.Total = 17 ∧ g'.Dealer.Soft = false))) := by
  obtain ⟨g4, hrun, hinv, hp, hd, hdone⟩ :=
    openingDeal_ok _ (RoundInv_start deck hperm) rfl rfl
  have hfalse : g4.Done = false := hdone
  obtain ⟨g', hloop, hst⟩ := mainLoop_ok inputs g4 hinv (fun _ => ⟨hd, by omega⟩)
    (fun h => by rw [hfalse] at h; cases h)
  refine ⟨g', ?_, hst⟩
  unfold playRound
  rw [hrun]
  exact hloop

theorem roundThenStand_ok (deck : Deck) (hperm : List.Perm deck NewGame.fill.1) (k : Nat) :
    ∃ g', roundThenStand k ⟨deck, ⟨[], 0, false⟩, ⟨[], 0, false⟩, false⟩ = .done g' ∧
      g'.Done = true ∧
      (g'.Dealer.Total > 17 ∨ (g'.Dealer.Total = 17 ∧ g'.Dealer.Soft = false)) := by
  obtain ⟨g4, hrun, hinv, hp, hd, _⟩ :=
    openingDeal_ok _ (RoundInv_start deck hperm) rfl rfl
  obtain ⟨g5, hhits, hinv5, _, hp5, _⟩ := guardedHits_ok k g4 hinv hd (by omega)
  obtain ⟨g', hstand, hdone, hst, _⟩ := Stand_ok g5 hinv5 hp5
  refine ⟨g', ?_, hdone, hst⟩
  unfold roundThenStand
  rw [hrun]
  simp only [Run.andThen]
  rw [hhits]
  exact hstand

/-- C13: 52 cards suffice for one round.  For every ordering `deck` of the full
deck, the round of `main` (opening deal, then the loop on any input lines)
never panics: every `Hit` finds a card, and when `Stand` is called it returns
with the dealer at a standing total.  The same holds for the sequence opening
deal, any number of player hits each made only while the player's `Total` is
at most 21, then `Stand`; and for `main` itself on every shuffle. -/
theorem full_deck_suffices (deck : Deck) (hperm : List.Perm deck NewGame.fill.1) :
    (∀ inputs : List String,
      ∃ g', playRound ⟨deck, ⟨[], 0, false⟩, ⟨[], 0, false⟩, false⟩ inputs = .done g' ∧
        (g'.Done = true →
          (g'.Dealer.Total > 17 ∨ (g'.Dealer.Total = 17 ∧ g'.Dealer.Soft = false)))) ∧
    (∀ k : Nat,
      ∃ g', roundThenStand k ⟨deck, ⟨[], 0, false⟩, ⟨[], 0, false⟩, false⟩ = .done g' ∧
        g'.Done = true ∧
        (g'.Dealer.Total > 17 ∨ (g'.Dealer.Total = 17 ∧ g'.Dealer.Soft = false))) ∧
    (∀ (rnd : (i : Nat) → Fin (i + 1)) (inputs : List String),
      ∃ g', main rnd inputs = .done g' ∧
        (g'.Done = true →
          (g'.Dealer.Total > 17 ∨ (g'.Dealer.Total = 17 ∧ g'.Dealer.Soft = false)))) :=
  ⟨playRound_ok deck hperm, roundThenStand_ok deck hperm,
    fun rnd inputs => playRound_ok _ (Shuffle_perm NewGame.fill.1 rnd) inputs⟩

/-- Witness for C13: the unshuffled deck, the player hitting once and then
standing. -/
theorem full_deck_suffices_witness :
    List.Perm NewGame.fill.1 NewGame.fill.1 ∧
    ∃ g', playRound ⟨NewGame.fill.1, ⟨[], 0, false⟩, ⟨[], 0, false⟩, false⟩ ["h", "s"]
      = .done g' :=
  ⟨List.Perm.refl _,
    let ⟨g', h, _⟩ := (full_deck_suffices NewGame.fill.1 (List.Perm.refl _)).1 ["h", "s"]
    ⟨g', h⟩⟩

/-! ## The shuffle as a bijection -/

theorem swapAt_length (d : Deck) (i j : Nat) : (swapAt d i j).length = d.length :=
  (swapAt_perm d i j).length_eq

theorem swapAt_getElem? (d : Deck) (i j m : Nat) (hi : i < d.length) (hj : j < d.length) :
    (swapAt d i j)[m]? = if m = j then d[i]? else if m = i then d[j]? else d[m]? := by
  unfold swapAt
  rw [List.getElem?_eq_getElem hi, List.getElem?_eq_getElem hj]
  simp only [List.getElem?_set, List.length_set]
  by_cases h1 : m = j
  · subst h1
    simp [hj]
  · by_cases h2 : m = i
    · subst h2
      simp [h1, hi, Ne.symm h1]
    · simp [h1, h2, Ne.symm h1, Ne.symm h2]

theorem swapAt_swapAt (d : Deck) (i j : Nat) (hi : i < d.length) (hj : j < d.length) :
    swapAt (swapAt d i j) i j = d := by
  apply List.ext_getElem?
  intro m
  have hi' : i < (swapAt d i j).length := by rw [swapAt_length]; exact hi
  have hj' : j < (swapAt d i j).length := by rw [swapAt_length]; exact hj
  rw [swapAt_getElem? _ i j m hi' hj', swapAt_getElem? d i j i hi hj,
    swapAt_getElem? d i j j hi hj, swapAt_getElem? d i j m hi hj]
  by_cases h1 : m = j
  · subst h1
    by_cases h2 : i = m
    · subst h2; simp
    · simp [h2]
  · by_cases h2 : m = i
    · subst h2; simp [h1]
    · simp [h1, h2]


theorem Shuffle_eq_steps (d : Deck) (rnd : (i : Nat) → Fin (i + 1)) :
    d.Shuffle rnd = shuffleSteps rnd d.length d := rfl

theorem shuffleSteps_succ (rnd : (i : Nat) → Fin (i + 1)) (k : Nat) (d : Deck) :
    shuffleSteps rnd (k + 1) d = swapAt (shuffleSteps rnd k d) k (rnd k).val := by
  simp [shuffleSteps, List.range_succ, List.foldl_append]

theorem shuffleSteps_perm (rnd : (i : Nat) → Fin (i + 1)) (k : Nat) (d : Deck) :
    List.Perm (shuffleSteps rnd k d) d :=
  foldl_swapAt_perm rnd _ d

theorem shuffleSteps_length (rnd : (i : Nat) → Fin (i + 1)) (k : Nat) (d : Deck) :
    (shuffleSteps rnd k d).length = d.length :=
  (shuffleSteps_perm rnd k d).length_eq

theorem shuffleSteps_getElem?_ge (rnd : (i : Nat) → Fin (i + 1)) (k : Nat) (d : Deck)
    (hk : k ≤ d.length) (m : Nat) (hm : k ≤ m) :
    (shuffleSteps rnd k d)[m]? = d[m]? := by
  induction k with
  | zero => rfl
  | succ k ih =>
    have hlen := shuffleSteps_length rnd k d
    have hj := (rnd k).isLt
    rw [shuffleSteps_succ, swapAt_getElem? _ k _ m (by omega) (by omega)]
    rw [if_neg (by omega), if_neg (by omega)]
    exact ih (by omega) (by omega)

theorem shuffleSteps_congr (rnd rnd' : (i : Nat) → Fin (i + 1)) (k : Nat) (d : Deck)
    (h : ∀ i, i < k → rnd i = rnd' i) :
    shuffleSteps rnd k d = shuffleSteps rnd' k d := by
  induction k with
  | zero => rfl
  | succ k ih =>
    rw [shuffleSteps_succ, shuffleSteps_succ, ih (fun i hi => h i (by omega)), h k (by omega)]

theorem nodup_getElem?_inj (l : Deck) (hnd : l.Nodup) (p q : Nat) (x : Card)
    (hp : l[p]? = some x) (hq : l[q]? = some x) : p = q := by
  obtain ⟨hp', hpx⟩ := List.getElem?_eq_some_iff.mp hp
  obtain ⟨hq', hqx⟩ := List.getElem?_eq_some_iff.mp hq
  exact (hnd.getElem_inj_iff).mp (hpx.trans hqx.symm)

theorem shuffleSteps_inj (rnd rnd' : (i : Nat) → Fin (i + 1)) (d : Deck) (hnd : d.Nodup)
    (k : Nat) (hk : k ≤ d.length)
    (h : shuffleSteps rnd k d = shuffleSteps rnd' k d) :
    ∀ i, i < k → rnd i = rnd' i := by
  induction k with
  | zero => intro i hi; omega
  | succ k ih =>
    have hlen := shuffleSteps_length rnd k d
    have hlen' := shuffleSteps_length rnd' k d
    have hj := (rnd k).isLt
    have hj' := (rnd' k).isLt
    have hkd : k < d.length := by omega
    rw [shuffleSteps_succ, shuffleSteps_succ] at h
    -- the card `d[k]` sits at position `rnd k` of the result, and at `rnd' k`
    have h1 : (swapAt (shuffleSteps rnd k d) k (rnd k).val)[(rnd k).val]? = some d[k] := by
      rw [swapAt_getElem? _ k _ _ (by omega) (by omega), if_pos rfl,
        shuffleSteps_getElem?_ge rnd k d (by omega) k (le_refl k),
        List.getElem?_eq_getElem hkd]
    have h2 : (swapAt (shuffleSteps rnd' k d) k (rnd' k).val)[(rnd' k).val]? = some d[k] := by
      rw [swapAt_getElem? _ k _ _ (by omega) (by omega), if_pos rfl,
        shuffleSteps_getElem?_ge rnd' k d (by omega) k (le_refl k),
        List.getElem?_eq_getElem hkd]
    have hnd' : (swapAt (shuffleSteps rnd k d) k (rnd k).val).Nodup :=
      ((swapAt_perm _ _ _).trans (shuffleSteps_perm rnd k d)).nodup_iff.mpr hnd
    rw [← h] at h2
    have hjj : (rnd k).val = (rnd' k).val := nodup_getElem?_inj _ hnd' _ _ _ h1 h2
    have hprev : shuffleSteps rnd k d = shuffleSteps rnd' k d := by
      have e1 := swapAt_swapAt (shuffleSteps rnd k d) k (rnd k).val (by omega) (by omega)
      have e2 := swapAt_swapAt (shuffleSteps rnd' k d) k (rnd' k).val (by omega) (by omega)
      rw [← e1, ← e2, h, hjj]
    intro i hi
    rcases Nat.lt_succ_iff_lt_or_eq.mp hi with hlt | heq
    · exact ih (by omega) hprev i hlt
    · subst heq
      exact Fin.ext hjj


theorem swapAt_append (l r : Deck) (i j : Nat) (hi : i < l.length) (hj : j < l.length) :
    swapAt (l ++ r) i j = swapAt l i j ++ r := by
  unfold swapAt
  rw [List.getElem?_append_left hi, List.getElem?_append_left hj,
    List.getElem?_eq_getElem hi, List.getElem?_eq_getElem hj]
  simp only
  rw [List.set_append_left _ _ hi, List.set_append_left _ _ (by simpa using hj)]

theorem shuffleSteps_append (rnd : (i : Nat) → Fin (i + 1)) (k : Nat) (l r : Deck)
    (hk : k ≤ l.length) :
    shuffleSteps rnd k (l ++ r) = shuffleSteps rnd k l ++ r := by
  induction k with
  | zero => rfl
  | succ k ih =>
    have hlen := shuffleSteps_length rnd k l
    have hj := (rnd k).isLt
    rw [shuffleSteps_succ, shuffleSteps_succ, ih (by omega),
      swapAt_append _ _ _ _ (by omega) (by omega)]

theorem eq_take_append_last (l : Deck) (n : Nat) (x : Card) (hlen : l.length = n + 1)
    (hx : l[n]? = some x) : l = l.take n ++ [x] := by
  obtain ⟨hn, hx'⟩ := List.getElem?_eq_some_iff.mp hx
  have hdrop : l.drop n = [x] := by
    rw [List.drop_eq_getElem_cons hn, hx', List.drop_of_length_le (by omega)]
  calc l = l.take n ++ l.drop n := (List.take_append_drop n l).symm
    _ = l.take n ++ [x] := by rw [hdrop]

theorem shuffleSteps_surj (n : Nat) :
    ∀ d t : Deck, d.length = n → List.Perm t d →
      ∃ rnd : (i : Nat) → Fin (i + 1), shuffleSteps rnd n d = t := by
  induction n with
  | zero =>
    intro d t hd hp
    have hd' : d = [] := List.length_eq_zero.mp hd
    subst hd'
    exact ⟨fun _ => 0, (List.Perm.eq_nil hp).symm⟩
  | succ n ih =>
    intro d t hd hp
    have hn : n < d.length := by omega
    obtain ⟨d0, x, hdx, hd0⟩ : ∃ (d0 : Deck) (x : Card), d = d0 ++ [x] ∧ d0.length = n :=
      ⟨d.take n, d[n], eq_take_append_last d n d[n] hd (List.getElem?_eq_getElem hn),
        by rw [List.length_take]; omega⟩
    subst hdx
    have hmem : x ∈ t := hp.mem_iff.mpr (by simp)
    obtain ⟨p, hp'⟩ := List.mem_iff_getElem?.mp hmem
    have htlen : t.length = n + 1 := hp.length_eq.trans hd
    have hpl : p < n + 1 := by
      obtain ⟨h, _⟩ := List.getElem?_eq_some_iff.mp hp'
      omega
    have hlast : (swapAt t n p)[n]? = some x := by
      rw [swapAt_getElem? t n p n (by omega) (by omega)]
      by_cases hnp : n = p
      · rw [if_pos hnp]
        subst hnp
        exact hp'
      · rw [if_neg hnp, if_pos rfl]
        exact hp'
    have hsplit : swapAt t n p = (swapAt t n p).take n ++ [x] :=
      eq_take_append_last _ n x (by rw [swapAt_length]; exact htlen) hlast
    have hperm0 : List.Perm ((swapAt t n p).take n) d0 := by
      have h1 : List.Perm (swapAt t n p) (d0 ++ [x]) := (swapAt_perm t n p).trans hp
      rw [hsplit] at h1
      exact (List.perm_append_right_iff _).mp h1
    obtain ⟨rnd0, hrnd0⟩ := ih d0 ((swapAt t n p).take n) hd0 hperm0
    refine ⟨fun i => if h : i = n then ⟨p, by omega⟩ else rnd0 i, ?_⟩
    rw [shuffleSteps_succ]
    have hcongr :
        shuffleSteps (fun i => if h : i = n then ⟨p, by omega⟩ else rnd0 i) n (d0 ++ [x])
          = shuffleSteps rnd0 n (d0 ++ [x]) :=
      shuffleSteps_congr _ _ n _ (fun i hi => by
        have : i ≠ n := by omega
        simp [this])
    rw [hcongr]
    have hsteps : shuffleSteps rnd0 n (d0 ++ [x]) = swapAt t n p := by
      rw [shuffleSteps_append rnd0 n _ _ (by omega), hrnd0]
      exact hsplit.symm
    rw [hsteps]
    simp only [dif_pos]
    exact swapAt_swapAt t n p (by omega) (by omega)

/-- C20: on a deck of pairwise distinct cards, two choice sequences that differ
at some step `i < len d` make `Shuffle` produce different orderings; the result
depends on the choices `rnd 0 .. rnd (len d - 1)` only, and every permutation
of the deck is produced by some choice sequence.  So the map from choice
sequences to orderings is a bijection onto the permutations of the deck. -/
theorem Shuffle_choices_bijective (d : Deck) (hnd : d.Nodup) :
    (∀ rnd rnd' : (i : Nat) → Fin (i + 1),
      (∃ i, i < d.length ∧ rnd i ≠ rnd' i) → d.Shuffle rnd ≠ d.Shuffle rnd') ∧
    (∀ rnd rnd' : (i : Nat) → Fin (i + 1),
      d.Shuffle rnd = d.Shuffle rnd' ↔ ∀ i, i < d.length → rnd i = rnd' i) ∧
    (∀ t : Deck, List.Perm t d ↔ ∃ rnd : (i : Nat) → Fin (i + 1), d.Shuffle rnd = t) := by
  refine ⟨?_, ?_, ?_⟩
  · rintro rnd rnd' ⟨i, hi, hne⟩ heq
    exact hne (shuffleSteps_inj rnd rnd' d hnd d.length (le_refl _) heq i hi)
  · intro rnd rnd'
    constructor
    · intro heq
      exact shuffleSteps_inj rnd rnd' d hnd d.length (le_refl _) heq
    · intro h
      exact shuffleSteps_congr rnd rnd' d.length d h
  · intro t
    constructor
    · intro hp
      exact shuffleSteps_surj d.length d t rfl hp
    · rintro ⟨rnd, rfl⟩
      exact Shuffle_perm d rnd

/-- Witness for C20: on the deck Ace of spades, King of hearts the choices
`0, 0` and `0, 1` give different orderings. -/
theorem Shuffle_choices_bijective_witness :
    ([⟨"♠", 1⟩, ⟨"♥", 13⟩] : Deck).Nodup ∧
    Deck.Shuffle [⟨"♠", 1⟩, ⟨"♥", 13⟩] (fun _ => 0)
      ≠ Deck.Shuffle [⟨"♠", 1⟩, ⟨"♥", 13⟩] (fun i => Fin.last i) :=
  ⟨by decide,
    (Shuffle_choices_bijective [⟨"♠", 1⟩, ⟨"♥", 13⟩] (by decide)).1 (fun _ => 0)
      (fun i => Fin.last i) ⟨1, by decide, by decide⟩⟩

/-! ## What the Soft flag says -/

theorem rawSum_split (cards : List Card) :
    rawSum cards = nonAceSum cards + 11 * (numAces cards : Int) := by
  induction cards with
  | nil => simp [rawSum, nonAceSum, numAces]
  | cons c cs ih =>
    simp only [rawSum, nonAceSum, numAces] at ih ⊢
    by_cases hc : c.Rank = 1
    · have hrv : rawValue c = 11 := by simp [rawValue, hc]
      simp only [List.map_cons, List.sum_cons, hrv, ih]
      simp [List.countP_cons, hc]
      omega
    · simp only [List.map_cons, List.sum_cons, ih]
      simp [List.countP_cons, hc]
      omega

theorem nonAceSum_nonneg (cards : List Card) (hr : ∀ c ∈ cards, 1 ≤ c.Rank) :
    0 ≤ nonAceSum cards := by
  induction cards with
  | nil => simp [nonAceSum]
  | cons c cs ih =>
    have h1 := hr c (List.mem_cons_self _ _)
    have h2 := ih (fun x hx => hr x (List.mem_cons_of_mem _ hx))
    simp only [nonAceSum] at h2 ⊢
    by_cases hc : c.Rank = 1
    · have hf : List.filter (fun c => decide (c.Rank ≠ 1)) (c :: cs)
          = List.filter (fun c => decide (c.Rank ≠ 1)) cs := by
        simp [List.filter_cons, hc]
      rw [hf]
      exact h2
    · have hv : 0 ≤ rawValue c := by
        unfold rawValue
        split_ifs <;> omega
      have hf : List.filter (fun c => decide (c.Rank ≠ 1)) (c :: cs)
          = c :: List.filter (fun c => decide (c.Rank ≠ 1)) cs := by
        simp [List.filter_cons, hc]
      rw [hf]
      simp only [List.map_cons, List.sum_cons]
      omega

theorem hasAce_iff_numAces (cards : List Card) :
    hasAce cards = true ↔ 1 ≤ numAces cards := by
  induction cards with
  | nil => simp [hasAce, numAces]
  | cons c cs ih =>
    simp only [hasAce, numAces] at ih ⊢
    by_cases hc : c.Rank = 1
    · simp [List.countP_cons, hc]
    · simp [List.countP_cons, hc]

theorem Score_Soft_rawSum (h : Hand) (hr : ∀ c ∈ h.Cards, 1 ≤ c.Rank ∧ c.Rank ≤ 13) :
    h.Score.Soft
      = if rawSum h.Cards > 21 ∧ hasAce h.Cards = true then false else hasAce h.Cards := by
  rw [Score_eq, sum_cardPoints_eq_rawSum h.Cards hr]
  split_ifs <;> rfl

/-- C2 (amended): for a hand of cards with ranks 1..13, after `Score` the flag
`Soft` is true exactly when the hand holds a single Ace and that Ace is counted
as 11 without busting (`Total ≤ 21` and `Total` is the non-Ace sum plus 11).
Whenever `Soft` is true an Ace is counted as 11 without busting; for hands with
at most one Ace the two are equivalent; with two or more Aces `Soft` is
false. -/
theorem Soft_iff_single_ace_eleven (h : Hand)
    (hr : ∀ c ∈ h.Cards, 1 ≤ c.Rank ∧ c.Rank ≤ 13) :
    (h.Score.Soft = true ↔
      (numAces h.Cards = 1 ∧ h.Score.Total ≤ 21 ∧
        h.Score.Total = nonAceSum h.Cards + 11)) ∧
    (h.Score.Soft = true → countsAceAsEleven h.Cards h.Score.Total) ∧
    (numAces h.Cards ≤ 1 →
      (h.Score.Soft = true ↔ countsAceAsEleven h.Cards h.Score.Total)) ∧
    (2 ≤ numAces h.Cards → h.Score.Soft = false) := by
  have hT := Score_Total_rawSum h hr
  have hS := Score_Soft_rawSum h hr
  have hsplit := rawSum_split h.Cards
  have hnn := nonAceSum_nonneg h.Cards (fun c hc => (hr c hc).1)
  have hace := hasAce_iff_numAces h.Cards
  have key : h.Score.Soft = true ↔
      (numAces h.Cards = 1 ∧ h.Score.Total ≤ 21 ∧
        h.Score.Total = nonAceSum h.Cards + 11) := by
    by_cases ha : hasAce h.Cards = true
    · have h1 := hace.mp ha
      simp only [ha, and_true] at hT hS
      by_cases hgt : rawSum h.Cards > 21
      · rw [if_pos hgt] at hT hS
        rw [hS]
        constructor
        · intro hf
          cases hf
        · rintro ⟨e1, e2, e3⟩
          rw [e1] at hsplit
          omega
      · rw [if_neg hgt] at hT hS
        rw [hS]
        constructor
        · intro _
          refine ⟨?_, ?_, ?_⟩ <;> omega
        · intro _
          rfl
    · have h0 : ¬ 1 ≤ numAces h.Cards := fun hh => ha (hace.mpr hh)
      have hfalse : hasAce h.Cards = false := by simpa using ha
      simp only [hfalse, Bool.false_eq_true, and_false, if_false] at hS
      rw [hS]
      constructor
      · intro hf
        cases hf
      · rintro ⟨e1, _, _⟩
        omega
  have fwd : h.Score.Soft = true → countsAceAsEleven h.Cards h.Score.Total := by
    intro hs
    obtain ⟨e1, e2, e3⟩ := key.mp hs
    refine ⟨e2, 0, by omega, ?_⟩
    rw [e3, e1]
    simp
  refine ⟨key, fwd, ?_, ?_⟩
  · intro hle
    constructor
    · exact fwd
    · rintro ⟨e2, k, hk, e3⟩
      have hk0 : k = 0 := by omega
      have e1 : numAces h.Cards = 1 := by omega
      subst hk0
      rw [e1] at e3
      simp at e3
      exact key.mpr ⟨e1, e2, e3⟩
  · intro h2
    cases hs : h.Score.Soft with
    | false => rfl
    | true =>
      have := (key.mp hs).1
      omega

/-- Witness for C2 (amended): Ace, 6 is a soft 17. -/
theorem Soft_iff_single_ace_eleven_witness :
    (∀ c ∈ (Hand.mk [⟨"♠", 1⟩, ⟨"♥", 6⟩] 0 false).Cards, 1 ≤ c.Rank ∧ c.Rank ≤ 13) ∧
    (Hand.Score ⟨[⟨"♠", 1⟩, ⟨"♥", 6⟩], 0, false⟩).Soft = true ∧
    countsAceAsEleven [⟨"♠", 1⟩, ⟨"♥", 6⟩]
      (Hand.Score ⟨[⟨"♠", 1⟩, ⟨"♥", 6⟩], 0, false⟩).Total :=
  have hr : ∀ c ∈ (Hand.mk [⟨"♠", 1⟩, ⟨"♥", 6⟩] 0 false).Cards,
      1 ≤ c.Rank ∧ c.Rank ≤ 13 := by decide
  have hs : (Hand.Score ⟨[⟨"♠", 1⟩, ⟨"♥", 6⟩], 0, false⟩).Soft = true := by decide
  ⟨hr, hs, (Soft_iff_single_ace_eleven ⟨[⟨"♠", 1⟩, ⟨"♥", 6⟩], 0, false⟩ hr).2.1 hs⟩

end Blackjack
